import Mathlib

/-!
Shallow embedding of the policy-based LRU map from src/lru_map.h.

The C++ class LruMap keeps a list of key-value entries (`lru_list_`, most
recent at the front), an index from key to list position (`lru_key_map_`),
a fixed capacity and cumulative stats.  Here the list is a Lean list of
entries, and the index is modelled as the list of keys it maps (the mapped
iterator is a memory address; its resolution is captured by looking up the
entry with the same key in the entry list, which the consistency
invariant shows is unique).  The compile-time policy templates
(TimestampNone versus TimestampAll, HitCountDisabled versus
HitCountEnabled) are modelled by a pair of booleans; the wall clock read
by MicrosecondsSinceEpoch is passed to each operation as an explicit
argument.  Locking and logging policies have no observable effect on the
data structure and are not modelled.
-/

/-- Statistics bundle, from struct LruMapStats. -/
structure LruMapStats where
  num_insert : Int
  num_overflow : Int
  num_find : Int
  num_find_ok : Int
  num_erase : Int
  num_clear : Int
deriving Repr, DecidableEq

/-- All counters start at zero (default member initializers). -/
def LruMapStats.zero : LruMapStats := ⟨0, 0, 0, 0, 0, 0⟩

/-- Which optional compile-time policies are active: `timestampAll` selects
TimestampAll over TimestampNone, `hitCountEnabled` selects HitCountEnabled
over HitCountDisabled. -/
structure Policies where
  timestampAll : Bool
  hitCountEnabled : Bool
deriving Repr, DecidableEq

/-- One list entry, from struct KeyValueT.  The timestamp and hit-count
fields exist only under the corresponding policies in C++; here they are
always present but only mutated when the policy is active. -/
structure KeyValueEntry where
  key : Int
  value : Int
  access_time_usecs : Int
  modify_time_usecs : Int
  hit_count : Int
deriving Repr, DecidableEq

/-- KeyValueT's constructor: key and value from the arguments, the
policy-provided fields default-initialized to zero. -/
def KeyValueEntry.make (k v : Int) : KeyValueEntry := ⟨k, v, 0, 0, 0⟩

/-- TimestampingPolicy::UpdateModifyTimestamp: TimestampAll stores the
current clock in modify_time_usecs, TimestampNone does nothing. -/
def updateModifyTimestamp (p : Policies) (now : Int) (e : KeyValueEntry) : KeyValueEntry :=
  if p.timestampAll then { e with modify_time_usecs := now } else e

/-- TimestampingPolicy::UpdateAccessTimestamp: TimestampAll stores the
current clock in access_time_usecs, TimestampNone does nothing. -/
def updateAccessTimestamp (p : Policies) (now : Int) (e : KeyValueEntry) : KeyValueEntry :=
  if p.timestampAll then { e with access_time_usecs := now } else e

/-- HitCountingPolicy::IncrementHitCount: HitCountEnabled adds one to
hit_count, HitCountDisabled does nothing. -/
def incrementHitCount (p : Policies) (e : KeyValueEntry) : KeyValueEntry :=
  if p.hitCountEnabled then { e with hit_count := e.hit_count + 1 } else e

/-- Mutation through the begin() iterator: apply f to the front entry. -/
def updateFront (f : KeyValueEntry → KeyValueEntry) : List KeyValueEntry → List KeyValueEntry
  | [] => []
  | e :: rest => f e :: rest

/-- The splice call `lru_list_.splice(lru_list_.begin(), lru_list_, it)`
where `it` is the index entry for key k: the list node holding k moves to
the front, everything else keeps its order.  When no entry has key k the
iterator does not exist and the list is unchanged (that case is
unreachable in the source, which only splices a found iterator). -/
def spliceToFront (k : Int) (l : List KeyValueEntry) : List KeyValueEntry :=
  match l.find? (fun e => e.key == k) with
  | some e => e :: l.eraseP (fun e => e.key == k)
  | none => l

/-- The LruMap state: fixed capacity, cumulative stats, entry list (front
is most recent), and the key set of the key-to-iterator index. -/
structure LruMap where
  capacity_ : Int
  lru_stats_ : LruMapStats
  lru_list_ : List KeyValueEntry
  lru_key_map_ : List Int
deriving Repr, DecidableEq

/-- The constructor LruMap(capacity): empty list and index, zero stats.
The CHECK_GE(capacity, 1) precondition appears as a hypothesis of the
theorems below. -/
def LruMap.init (capacity : Int) : LruMap := ⟨capacity, LruMapStats.zero, [], []⟩

/-- SizePrivate(): the list length (the DCHECK that list and map sizes
agree is the consistency invariant proved below). -/
def LruMap.SizePrivate (m : LruMap) : Int := (m.lru_list_.length : Int)

/-- Size(): SizePrivate under the lock. -/
def LruMap.Size (m : LruMap) : Int := m.SizePrivate

/-- Capacity(): the stored capacity. -/
def LruMap.Capacity (m : LruMap) : Int := m.capacity_

/-- Insert, first branch (lru_map.h lines 307-327): when the key exists,
splice its node to the front and overwrite the value through begin();
otherwise push a new entry at the front and insert the key into the
index. -/
def insertPhase1 (k v : Int) (m : LruMap) : LruMap :=
  if m.lru_key_map_.contains k then
    { m with lru_list_ :=
        updateFront (fun e => { e with value := v }) (spliceToFront k m.lru_list_) }
  else
    { m with lru_list_ := KeyValueEntry.make k v :: m.lru_list_,
             lru_key_map_ := k :: m.lru_key_map_ }

/-- Insert, overflow step (lru_map.h lines 334-344): when the size exceeds
the capacity, record an overflow, erase the back entry's key from the
index, and pop the back of the list. -/
def evictIfOver (m : LruMap) : LruMap :=
  if m.SizePrivate > m.capacity_ then
    match m.lru_list_.getLast? with
    | some oldest =>
      { m with
          lru_stats_ := { m.lru_stats_ with num_overflow := m.lru_stats_.num_overflow + 1 },
          lru_key_map_ := m.lru_key_map_.erase oldest.key,
          lru_list_ := m.lru_list_.dropLast }
    | none => m
  else m

/-- The state reached inside Insert after the existence branch and the
LogInsert and UpdateModifyTimestamp calls on the front entry (lru_map.h
lines 305-332), before the overflow check. -/
def insertPhase2 (p : Policies) (now k v : Int) (m : LruMap) : LruMap :=
  let m1 := insertPhase1 k v m
  { m1 with lru_list_ := updateFront (updateModifyTimestamp p now) m1.lru_list_ }

/-- Insert(key, value), lru_map.h lines 302-347: branch on existence,
update the modify timestamp of the front (just inserted or updated)
entry, evict on overflow, then count the insert. -/
def LruMap.Insert (p : Policies) (now k v : Int) (m : LruMap) : LruMap :=
  let m3 := evictIfOver (insertPhase2 p now k v m)
  { m3 with lru_stats_ := { m3.lru_stats_ with num_insert := m3.lru_stats_.num_insert + 1 } }

/-- Find(key), lru_map.h lines 357-381: count the call; on a miss return
null; on a hit splice the node to the front, count the hit, bump the hit
counter, update the access timestamp and return the value at begin(). -/
def LruMap.Find (p : Policies) (now k : Int) (m : LruMap) : Option Int × LruMap :=
  let m1 := { m with lru_stats_ := { m.lru_stats_ with num_find := m.lru_stats_.num_find + 1 } }
  if m1.lru_key_map_.contains k then
    let l2 := updateFront (fun e => updateAccessTimestamp p now (incrementHitCount p e))
      (spliceToFront k m1.lru_list_)
    let s2 := { m1.lru_stats_ with num_find_ok := m1.lru_stats_.num_find_ok + 1 }
    let m2 := { m1 with lru_list_ := l2, lru_stats_ := s2 }
    (l2.head?.map (fun e => e.value), m2)
  else
    (none, m1)

/-- Exists(key), lru_map.h lines 391-397: membership in the index, no
mutation. -/
def LruMap.Exists (k : Int) (m : LruMap) : Bool := m.lru_key_map_.contains k

/-- Erase(key), lru_map.h lines 407-425: count the call; on a miss return;
on a hit erase the node from the list and the key from the index. -/
def LruMap.Erase (k : Int) (m : LruMap) : LruMap :=
  let m1 := { m with lru_stats_ := { m.lru_stats_ with num_erase := m.lru_stats_.num_erase + 1 } }
  if m1.lru_key_map_.contains k then
    { m1 with lru_list_ := m1.lru_list_.eraseP (fun e => e.key == k),
              lru_key_map_ := m1.lru_key_map_.erase k }
  else m1

/-- Clear(), lru_map.h lines 435-443: empty the list and the index and
count the clear; the other stats persist. -/
def LruMap.Clear (m : LruMap) : LruMap :=
  { m with lru_list_ := [], lru_key_map_ := [],
           lru_stats_ := { m.lru_stats_ with num_clear := m.lru_stats_.num_clear + 1 } }

/-- Largest int64 value, the initial prev_usecs of TimestampAll::Valid. -/
def int64Max : Int := 9223372036854775807

/-- The scan loop of TimestampAll::Valid: walking front to back, each
entry's max(access_time, modify_time) must not exceed the previous one's
(prev starts at the largest int64). -/
def timestampValidFrom (prev : Int) : List KeyValueEntry → Bool
  | [] => true
  | e :: rest =>
    let current_recent_usecs := max e.access_time_usecs e.modify_time_usecs
    if current_recent_usecs > prev then false
    else timestampValidFrom current_recent_usecs rest

/-- TimestampAll::Valid, lru_map.h lines 636-655. -/
def TimestampAll.Valid (l : List KeyValueEntry) : Bool := timestampValidFrom int64Max l

/-- TimestampNone::Valid, lru_map.h lines 609-611: always true. -/
def TimestampNone.Valid (_l : List KeyValueEntry) : Bool := true

/-- Valid(): dispatch to the active timestamping policy's audit. -/
def LruMap.Valid (p : Policies) (m : LruMap) : Bool :=
  if p.timestampAll then TimestampAll.Valid m.lru_list_ else TimestampNone.Valid m.lru_list_

/-- One public mutating-or-observing call, with the clock value the
operation reads where the source reads MicrosecondsSinceEpoch. -/
inductive Op where
  | insert (now k v : Int)
  | find (now k : Int)
  | exists_ (k : Int)
  | erase (k : Int)
  | clear
deriving Repr, DecidableEq

/-- Apply one operation to the state (Exists and a Find miss do not
change the entry list or index; Find's returned pointer is dropped). -/
def LruMap.applyOp (p : Policies) (m : LruMap) : Op → LruMap
  | .insert now k v => LruMap.Insert p now k v m
  | .find now k => (LruMap.Find p now k m).2
  | .exists_ _ => m
  | .erase k => LruMap.Erase k m
  | .clear => LruMap.Clear m

/-- Run a sequence of public operations. -/
def LruMap.runOps (p : Policies) (m : LruMap) (ops : List Op) : LruMap :=
  ops.foldl (LruMap.applyOp p) m

/-- The keys of the entry list, front to back. -/
def keysOf (m : LruMap) : List Int := m.lru_list_.map KeyValueEntry.key

/-- Mutual consistency of index and sequence: the index's key set is a
permutation of the sequence's keys (same size, same members) and the
sequence's keys are pairwise distinct, so each index key resolves to a
unique entry. -/
def Consistent (m : LruMap) : Prop :=
  m.lru_key_map_.Perm (keysOf m) ∧ (keysOf m).Nodup

/-- The structural invariant: consistency, a positive capacity, and the
size bounded by the capacity. -/
def LruInv (m : LruMap) : Prop :=
  Consistent m ∧ 1 ≤ m.capacity_ ∧ (m.lru_list_.length : Int) ≤ m.capacity_

/-- A state is reachable when some operation sequence produces it from a
freshly constructed map with a legal capacity. -/
def Reachable (p : Policies) (m : LruMap) : Prop :=
  ∃ cap ops, 1 ≤ cap ∧ m = LruMap.runOps p (LruMap.init cap) ops

/-- Keys of a list of key-value pairs to insert, in order. -/
def firstKeys (kvs : List (Int × Int)) : List Int := kvs.map Prod.fst

/-- The Insert calls for a list of key-value pairs (clock fixed at 0;
the keys are what the eviction claims are about). -/
def insOps (kvs : List (Int × Int)) : List Op :=
  kvs.map (fun kv => Op.insert 0 kv.1 kv.2)

/-- The newest timestamp evidence of an entry, the quantity scanned by
TimestampAll::Valid. -/
def maxTs (e : KeyValueEntry) : Int := max e.access_time_usecs e.modify_time_usecs

/-- The clock values read by the operations of the sequence, in call
order, are at least t, non-decreasing, and representable as int64 (as the
source's wall-clock microseconds are). -/
def timesOkFrom (t : Int) : List Op → Bool
  | [] => true
  | Op.insert now _ _ :: rest =>
    decide (t ≤ now) && decide (now ≤ int64Max) && timesOkFrom now rest
  | Op.find now _ :: rest =>
    decide (t ≤ now) && decide (now ≤ int64Max) && timesOkFrom now rest
  | _ :: rest => timesOkFrom t rest

/-- The timestamp shape maintained by a correctly functioning engine
under TimestampAll with a monotone clock: newest-timestamp values are
non-increasing from front to back and all are at most t, the last clock
value read. -/
def TsOkList (t : Int) (l : List KeyValueEntry) : Prop :=
  List.Pairwise (fun a b => maxTs b ≤ maxTs a) l ∧ ∀ e ∈ l, maxTs e ≤ t

/-- The full timestamp invariant: the list shape plus the clock value
lying in the wall-clock int64 range. -/
def TsOk (t : Int) (m : LruMap) : Prop :=
  TsOkList t m.lru_list_ ∧ 0 ≤ t ∧ t ≤ int64Max

/-- Pointwise order on stats bundles: no counter decreases. -/
def statsLe (a b : LruMapStats) : Prop :=
  a.num_insert ≤ b.num_insert ∧ a.num_overflow ≤ b.num_overflow ∧
  a.num_find ≤ b.num_find ∧ a.num_find_ok ≤ b.num_find_ok ∧
  a.num_erase ≤ b.num_erase ∧ a.num_clear ≤ b.num_clear

/-- A concrete run of the stats scenario: capacity 4, eight distinct
keys inserted, then finds for keys 7 (hit), 6 (hit) and 0 (miss,
evicted). -/
def statsScenarioKvs : List (Int × Int) :=
  [(0, 0), (1, 1), (2, 2), (3, 3), (4, 4), (5, 5), (6, 6), (7, 7)]

/-- The scenario state after the eight inserts. -/
def statsScenarioM8 : LruMap :=
  LruMap.runOps ⟨false, false⟩ (LruMap.init ((4 : Nat) : Int)) (insOps statsScenarioKvs)

/-- The scenario state after the eight inserts and the first find. -/
def statsScenarioM9 : LruMap := (LruMap.Find ⟨false, false⟩ 1 7 statsScenarioM8).2

/-- The scenario state after the eight inserts and two finds. -/
def statsScenarioM10 : LruMap := (LruMap.Find ⟨false, false⟩ 2 6 statsScenarioM9).2

/-- The scenario state after the eight inserts and all three finds. -/
def statsScenarioM11 : LruMap := (LruMap.Find ⟨false, false⟩ 3 0 statsScenarioM10).2

/-! Helper lemmas about spliceToFront and the entry updaters. -/

theorem spliceToFront_perm (k : Int) (l : List KeyValueEntry) :
    (spliceToFront k l).Perm l := by
  induction l with
  | nil => simp [spliceToFront]
  | cons e rest ih =>
    by_cases h : (e.key == k) = true
    · rw [spliceToFront,
        List.find?_cons_of_pos (p := fun e : KeyValueEntry => e.key == k) rest h,
        List.eraseP_cons_of_pos (p := fun e : KeyValueEntry => e.key == k) h]
    · rw [spliceToFront,
        List.find?_cons_of_neg (p := fun e : KeyValueEntry => e.key == k) rest (by simpa using h),
        List.eraseP_cons_of_neg (p := fun e : KeyValueEntry => e.key == k) (by simpa using h)]
      cases hf : rest.find? (fun e => e.key == k) with
      | none => exact List.Perm.refl _
      | some e' =>
        have ih' : (e' :: rest.eraseP (fun e => e.key == k)).Perm rest := by
          simpa [spliceToFront, hf] using ih
        exact ((List.Perm.swap e e' _).trans (ih'.cons e))

theorem splice_eq_of_find? {k : Int} {l : List KeyValueEntry} {e : KeyValueEntry}
    (h : l.find? (fun e => e.key == k) = some e) :
    spliceToFront k l = e :: l.eraseP (fun e => e.key == k) := by
  rw [spliceToFront, h]

theorem find?_key_isSome_of_mem {k : Int} {l : List KeyValueEntry}
    (h : k ∈ l.map KeyValueEntry.key) : (l.find? (fun e => e.key == k)).isSome := by
  rcases List.mem_map.1 h with ⟨e, he, hk⟩
  exact List.find?_isSome.2 ⟨e, he, by simp [hk]⟩

theorem key_of_find? {k : Int} {l : List KeyValueEntry} {e : KeyValueEntry}
    (h : l.find? (fun e => e.key == k) = some e) : e.key = k := by
  simpa using List.find?_some h

theorem map_key_updateFront (f : KeyValueEntry → KeyValueEntry)
    (hf : ∀ e, (f e).key = e.key) (l : List KeyValueEntry) :
    (updateFront f l).map KeyValueEntry.key = l.map KeyValueEntry.key := by
  cases l with
  | nil => rfl
  | cons e rest => simp [updateFront, hf]

theorem length_updateFront (f : KeyValueEntry → KeyValueEntry) (l : List KeyValueEntry) :
    (updateFront f l).length = l.length := by
  cases l <;> rfl

theorem key_updateModifyTimestamp (p : Policies) (now : Int) (e : KeyValueEntry) :
    (updateModifyTimestamp p now e).key = e.key := by
  unfold updateModifyTimestamp; split <;> rfl

theorem key_updateAccessTimestamp (p : Policies) (now : Int) (e : KeyValueEntry) :
    (updateAccessTimestamp p now e).key = e.key := by
  unfold updateAccessTimestamp; split <;> rfl

theorem key_incrementHitCount (p : Policies) (e : KeyValueEntry) :
    (incrementHitCount p e).key = e.key := by
  unfold incrementHitCount; split <;> rfl

theorem value_updateModifyTimestamp (p : Policies) (now : Int) (e : KeyValueEntry) :
    (updateModifyTimestamp p now e).value = e.value := by
  unfold updateModifyTimestamp; split <;> rfl

theorem value_updateAccessTimestamp (p : Policies) (now : Int) (e : KeyValueEntry) :
    (updateAccessTimestamp p now e).value = e.value := by
  unfold updateAccessTimestamp; split <;> rfl

theorem value_incrementHitCount (p : Policies) (e : KeyValueEntry) :
    (incrementHitCount p e).value = e.value := by
  unfold incrementHitCount; split <;> rfl

theorem contains_iff_mem {l : List Int} {k : Int} : l.contains k = true ↔ k ∈ l := by
  simp [List.contains]

/-! Preservation of the structural invariant by each operation. -/

theorem keysOf_perm_of_splice (k : Int) (m : LruMap) (f : KeyValueEntry → KeyValueEntry)
    (hf : ∀ e, (f e).key = e.key) :
    ((updateFront f (spliceToFront k m.lru_list_)).map KeyValueEntry.key).Perm
      (keysOf m) := by
  rw [map_key_updateFront f hf]
  exact (spliceToFront_perm k m.lru_list_).map KeyValueEntry.key

theorem consistent_insertPhase1 (k v : Int) (m : LruMap) (h : Consistent m) :
    Consistent (insertPhase1 k v m) := by
  rcases h with ⟨hperm, hnd⟩
  unfold insertPhase1
  split
  · refine ⟨?_, ?_⟩
    · exact hperm.trans
        ((keysOf_perm_of_splice k m (fun e => { e with value := v }) (fun e => rfl)).symm)
    · exact hnd.perm
        ((keysOf_perm_of_splice k m (fun e => { e with value := v }) (fun e => rfl)).symm)
  · next hmem =>
    have hk : k ∉ keysOf m := fun hin => by
      have : k ∈ m.lru_key_map_ := hperm.mem_iff.2 hin
      exact hmem (contains_iff_mem.2 this)
    exact ⟨hperm.cons k, List.nodup_cons.2 ⟨hk, hnd⟩⟩

theorem length_insertPhase1 (k v : Int) (m : LruMap) :
    (insertPhase1 k v m).lru_list_.length ≤ m.lru_list_.length + 1 := by
  unfold insertPhase1
  split
  · simp only [length_updateFront]
    exact le_trans (le_of_eq (spliceToFront_perm k m.lru_list_).length_eq) (Nat.le_succ _)
  · simp

theorem capacity_insertPhase1 (k v : Int) (m : LruMap) :
    (insertPhase1 k v m).capacity_ = m.capacity_ := by
  unfold insertPhase1; split <;> rfl

theorem stats_insertPhase1 (k v : Int) (m : LruMap) :
    (insertPhase1 k v m).lru_stats_ = m.lru_stats_ := by
  unfold insertPhase1; split <;> rfl

theorem consistent_evictIfOver (m : LruMap) (h : Consistent m) :
    Consistent (evictIfOver m) := by
  rcases h with ⟨hperm, hnd⟩
  unfold evictIfOver
  split
  · cases hlast : m.lru_list_.getLast? with
    | none => exact ⟨hperm, hnd⟩
    | some oldest =>
      have hdec : m.lru_list_.dropLast ++ [oldest] = m.lru_list_ :=
        List.dropLast_append_getLast? oldest (by simpa using hlast)
      have hkeys : keysOf m =
          m.lru_list_.dropLast.map KeyValueEntry.key ++ [oldest.key] := by
        conv_lhs => rw [keysOf, ← hdec]
        simp
      have hnotin : oldest.key ∉ m.lru_list_.dropLast.map KeyValueEntry.key := by
        intro hin
        rw [hkeys] at hnd
        exact (List.disjoint_of_nodup_append hnd) hin (by simp)
      refine ⟨?_, ?_⟩
      · have := hperm.erase oldest.key
        rw [hkeys] at this
        rwa [List.erase_append_right _ hnotin, List.erase_cons_head,
          List.append_nil] at this
      · rw [hkeys] at hnd
        exact hnd.of_append_left
  · exact ⟨hperm, hnd⟩

theorem capacity_evictIfOver (m : LruMap) : (evictIfOver m).capacity_ = m.capacity_ := by
  unfold evictIfOver
  split
  · cases m.lru_list_.getLast? <;> rfl
  · rfl

theorem length_evictIfOver (m : LruMap) (hcap : 0 ≤ m.capacity_)
    (hlen : (m.lru_list_.length : Int) ≤ m.capacity_ + 1) :
    ((evictIfOver m).lru_list_.length : Int) ≤ m.capacity_ := by
  unfold evictIfOver
  split
  · next hover =>
    have hlenpos : 0 < m.lru_list_.length := by
      by_contra hz
      have : m.lru_list_.length = 0 := Nat.eq_zero_of_not_pos hz
      rw [LruMap.SizePrivate, this] at hover
      omega
    have hne : m.lru_list_ ≠ [] := List.ne_nil_of_length_pos hlenpos
    cases hlast : m.lru_list_.getLast? with
    | none => exact absurd (List.getLast?_eq_getLast _ hne) (by simp [hlast])
    | some oldest =>
      have : m.lru_list_.dropLast.length = m.lru_list_.length - 1 := by
        simp [List.length_dropLast]
      simp only [this]
      rw [LruMap.SizePrivate] at hover
      omega
  · next hover =>
    rw [LruMap.SizePrivate] at hover
    omega

theorem map_key_eraseP (k : Int) (l : List KeyValueEntry) :
    (l.eraseP (fun e => e.key == k)).map KeyValueEntry.key
      = (l.map KeyValueEntry.key).eraseP (fun x => x == k) := by
  induction l with
  | nil => rfl
  | cons e rest ih =>
    by_cases h : (e.key == k) = true
    · rw [List.eraseP_cons_of_pos (p := fun e : KeyValueEntry => e.key == k) h,
        List.map_cons, List.eraseP_cons_of_pos (p := fun x : Int => x == k) h]
    · rw [List.eraseP_cons_of_neg (p := fun e : KeyValueEntry => e.key == k) (by simpa using h),
        List.map_cons, List.map_cons,
        List.eraseP_cons_of_neg (p := fun x : Int => x == k) (by simpa using h), ih]

theorem insertPhase2_list (p : Policies) (now k v : Int) (m : LruMap) :
    (insertPhase2 p now k v m).lru_list_
      = updateFront (updateModifyTimestamp p now) (insertPhase1 k v m).lru_list_ := rfl

theorem insertPhase2_keymap (p : Policies) (now k v : Int) (m : LruMap) :
    (insertPhase2 p now k v m).lru_key_map_ = (insertPhase1 k v m).lru_key_map_ := rfl

theorem insertPhase2_stats (p : Policies) (now k v : Int) (m : LruMap) :
    (insertPhase2 p now k v m).lru_stats_ = (insertPhase1 k v m).lru_stats_ := rfl

theorem insertPhase2_capacity (p : Policies) (now k v : Int) (m : LruMap) :
    (insertPhase2 p now k v m).capacity_ = (insertPhase1 k v m).capacity_ := rfl

theorem keysOf_insertPhase2 (p : Policies) (now k v : Int) (m : LruMap) :
    keysOf (insertPhase2 p now k v m) = keysOf (insertPhase1 k v m) := by
  rw [keysOf, keysOf, insertPhase2_list]
  exact map_key_updateFront _ (key_updateModifyTimestamp p now) _

theorem lruInv_Insert (p : Policies) (now k v : Int) (m : LruMap) (h : LruInv m) :
    LruInv (LruMap.Insert p now k v m) := by
  rcases h with ⟨hcons, hcap, hlen⟩
  have h1 : Consistent (insertPhase1 k v m) := consistent_insertPhase1 k v m hcons
  have hkeys2 := keysOf_insertPhase2 p now k v m
  have h2 : Consistent (insertPhase2 p now k v m) := by
    rcases h1 with ⟨hp, hn⟩
    refine ⟨?_, ?_⟩
    · rw [hkeys2, insertPhase2_keymap]
      exact hp
    · rw [hkeys2]
      exact hn
  have h2cap : (insertPhase2 p now k v m).capacity_ = m.capacity_ := by
    rw [insertPhase2_capacity, capacity_insertPhase1]
  have h2len : (insertPhase2 p now k v m).lru_list_.length ≤ m.lru_list_.length + 1 := by
    rw [insertPhase2_list, length_updateFront]
    exact length_insertPhase1 k v m
  unfold LruMap.Insert
  dsimp only
  refine ⟨?_, ?_, ?_⟩
  · exact consistent_evictIfOver _ h2
  · show 1 ≤ (evictIfOver _).capacity_
    rw [capacity_evictIfOver, h2cap]
    exact hcap
  · show ((evictIfOver _).lru_list_.length : Int) ≤ (evictIfOver _).capacity_
    rw [capacity_evictIfOver, h2cap]
    have hres := length_evictIfOver (insertPhase2 p now k v m) (by rw [h2cap]; omega)
      (by rw [h2cap]; omega)
    rwa [h2cap] at hres

theorem lruInv_Find (p : Policies) (now k : Int) (m : LruMap) (h : LruInv m) :
    LruInv (LruMap.Find p now k m).2 := by
  rcases h with ⟨⟨hperm, hnd⟩, hcap, hlen⟩
  unfold LruMap.Find
  dsimp only
  split
  · refine ⟨⟨?_, ?_⟩, hcap, ?_⟩
    · show m.lru_key_map_.Perm _
      rw [keysOf]
      dsimp only
      rw [map_key_updateFront _ (fun e => by
        rw [key_updateAccessTimestamp, key_incrementHitCount]) _]
      exact hperm.trans ((spliceToFront_perm k m.lru_list_).map KeyValueEntry.key).symm
    · show List.Nodup _
      rw [keysOf]
      dsimp only
      rw [map_key_updateFront _ (fun e => by
        rw [key_updateAccessTimestamp, key_incrementHitCount]) _]
      exact hnd.perm ((spliceToFront_perm k m.lru_list_).map KeyValueEntry.key).symm
    · show ((updateFront _ _).length : Int) ≤ m.capacity_
      rw [length_updateFront, (spliceToFront_perm k m.lru_list_).length_eq]
      exact hlen
  · exact ⟨⟨hperm, hnd⟩, hcap, hlen⟩

theorem lruInv_Erase (k : Int) (m : LruMap) (h : LruInv m) :
    LruInv (LruMap.Erase k m) := by
  rcases h with ⟨⟨hperm, hnd⟩, hcap, hlen⟩
  unfold LruMap.Erase
  dsimp only
  split
  · refine ⟨⟨?_, ?_⟩, hcap, ?_⟩
    · show (m.lru_key_map_.erase k).Perm _
      rw [keysOf]
      dsimp only
      rw [map_key_eraseP, ← List.erase_eq_eraseP']
      exact hperm.erase k
    · show List.Nodup _
      rw [keysOf]
      dsimp only
      exact hnd.sublist ((List.eraseP_sublist m.lru_list_).map KeyValueEntry.key)
    · show ((m.lru_list_.eraseP _).length : Int) ≤ m.capacity_
      have := (List.eraseP_sublist (p := fun e : KeyValueEntry => e.key == k)
        m.lru_list_).length_le
      omega
  · exact ⟨⟨hperm, hnd⟩, hcap, hlen⟩

theorem lruInv_Clear (m : LruMap) (h : LruInv m) : LruInv (LruMap.Clear m) := by
  rcases h with ⟨_, hcap, _⟩
  exact ⟨⟨List.Perm.refl [], List.nodup_nil⟩, hcap, by
    show ((0 : Nat) : Int) ≤ m.capacity_
    omega⟩

theorem lruInv_applyOp (p : Policies) (m : LruMap) (op : Op) (h : LruInv m) :
    LruInv (LruMap.applyOp p m op) := by
  cases op with
  | insert now k v => exact lruInv_Insert p now k v m h
  | find now k => exact lruInv_Find p now k m h
  | exists_ k => exact h
  | erase k => exact lruInv_Erase k m h
  | clear => exact lruInv_Clear m h

theorem lruInv_init (cap : Int) (hcap : 1 ≤ cap) : LruInv (LruMap.init cap) :=
  ⟨⟨List.Perm.refl [], List.nodup_nil⟩, hcap, by
    show ((0 : Nat) : Int) ≤ cap
    omega⟩

theorem lruInv_runOps (p : Policies) (m : LruMap) (ops : List Op) (h : LruInv m) :
    LruInv (LruMap.runOps p m ops) := by
  induction ops generalizing m with
  | nil => exact h
  | cons op rest ih => exact ih _ (lruInv_applyOp p m op h)

theorem reachable_lruInv (p : Policies) (m : LruMap) (h : Reachable p m) : LruInv m := by
  rcases h with ⟨cap, ops, hcap, rfl⟩
  exact lruInv_runOps p _ ops (lruInv_init cap hcap)

theorem capacity_Insert (p : Policies) (now k v : Int) (m : LruMap) :
    (LruMap.Insert p now k v m).capacity_ = m.capacity_ := by
  unfold LruMap.Insert
  dsimp only
  rw [capacity_evictIfOver]
  show (insertPhase1 k v m).capacity_ = m.capacity_
  exact capacity_insertPhase1 k v m

theorem capacity_Find (p : Policies) (now k : Int) (m : LruMap) :
    (LruMap.Find p now k m).2.capacity_ = m.capacity_ := by
  unfold LruMap.Find
  dsimp only
  split <;> rfl

theorem capacity_Erase (k : Int) (m : LruMap) :
    (LruMap.Erase k m).capacity_ = m.capacity_ := by
  unfold LruMap.Erase
  dsimp only
  split <;> rfl

theorem capacity_applyOp (p : Policies) (m : LruMap) (op : Op) :
    (LruMap.applyOp p m op).capacity_ = m.capacity_ := by
  cases op with
  | insert now k v => exact capacity_Insert p now k v m
  | find now k => exact capacity_Find p now k m
  | exists_ k => rfl
  | erase k => exact capacity_Erase k m
  | clear => rfl

theorem capacity_runOps (p : Policies) (m : LruMap) (ops : List Op) :
    (LruMap.runOps p m ops).capacity_ = m.capacity_ := by
  induction ops generalizing m with
  | nil => rfl
  | cons op rest ih =>
    exact (ih (LruMap.applyOp p m op)).trans (capacity_applyOp p m op)

/-- C1: after any sequence of public operations on a map constructed with
capacity at least 1, the index and the sequence have the same size, that
size is at most the capacity, every key in the index resolves to an entry
of the sequence holding that key and vice versa, and both key collections
are duplicate-free (no dangling locators, no orphan entries). -/
theorem C1_structural_invariants (p : Policies) (cap : Int) (ops : List Op) (hcap : 1 ≤ cap) :
    (LruMap.runOps p (LruMap.init cap) ops).lru_key_map_.length
        = (LruMap.runOps p (LruMap.init cap) ops).lru_list_.length ∧
    ((LruMap.runOps p (LruMap.init cap) ops).lru_list_.length : Int) ≤ cap ∧
    (∀ k : Int, k ∈ (LruMap.runOps p (LruMap.init cap) ops).lru_key_map_ ↔
        ∃ e ∈ (LruMap.runOps p (LruMap.init cap) ops).lru_list_, e.key = k) ∧
    (keysOf (LruMap.runOps p (LruMap.init cap) ops)).Nodup ∧
    (LruMap.runOps p (LruMap.init cap) ops).lru_key_map_.Nodup := by
  have hinv := lruInv_runOps p (LruMap.init cap) ops (lruInv_init cap hcap)
  rcases hinv with ⟨⟨hperm, hnd⟩, _, hlen⟩
  have hcapeq : (LruMap.runOps p (LruMap.init cap) ops).capacity_ = cap :=
    capacity_runOps p (LruMap.init cap) ops
  refine ⟨?_, ?_, ?_, hnd, hnd.perm hperm.symm⟩
  · rw [hperm.length_eq, keysOf, List.length_map]
  · exact le_of_le_of_eq hlen hcapeq
  · intro k
    rw [hperm.mem_iff, keysOf, List.mem_map]

theorem C1_structural_invariants_witness :
    (1 : Int) ≤ 2 ∧
    ((LruMap.runOps ⟨false, false⟩ (LruMap.init 2)
        [Op.insert 0 1 10, Op.insert 0 2 20, Op.insert 0 3 30,
         Op.find 0 2, Op.erase 1]).lru_key_map_.length
      = (LruMap.runOps ⟨false, false⟩ (LruMap.init 2)
        [Op.insert 0 1 10, Op.insert 0 2 20, Op.insert 0 3 30,
         Op.find 0 2, Op.erase 1]).lru_list_.length ∧
    ((LruMap.runOps ⟨false, false⟩ (LruMap.init 2)
        [Op.insert 0 1 10, Op.insert 0 2 20, Op.insert 0 3 30,
         Op.find 0 2, Op.erase 1]).lru_list_.length : Int) ≤ 2 ∧
    (∀ k : Int, k ∈ (LruMap.runOps ⟨false, false⟩ (LruMap.init 2)
        [Op.insert 0 1 10, Op.insert 0 2 20, Op.insert 0 3 30,
         Op.find 0 2, Op.erase 1]).lru_key_map_ ↔
        ∃ e ∈ (LruMap.runOps ⟨false, false⟩ (LruMap.init 2)
        [Op.insert 0 1 10, Op.insert 0 2 20, Op.insert 0 3 30,
         Op.find 0 2, Op.erase 1]).lru_list_, e.key = k) ∧
    (keysOf (LruMap.runOps ⟨false, false⟩ (LruMap.init 2)
        [Op.insert 0 1 10, Op.insert 0 2 20, Op.insert 0 3 30,
         Op.find 0 2, Op.erase 1])).Nodup ∧
    (LruMap.runOps ⟨false, false⟩ (LruMap.init 2)
        [Op.insert 0 1 10, Op.insert 0 2 20, Op.insert 0 3 30,
         Op.find 0 2, Op.erase 1]).lru_key_map_.Nodup) :=
  ⟨by decide, C1_structural_invariants ⟨false, false⟩ 2
    [Op.insert 0 1 10, Op.insert 0 2 20, Op.insert 0 3 30, Op.find 0 2, Op.erase 1]
    (by decide)⟩

/-! Stats characterization of each operation. -/

theorem stats_evictIfOver (m : LruMap) :
    (evictIfOver m).lru_stats_.num_insert = m.lru_stats_.num_insert ∧
    (evictIfOver m).lru_stats_.num_find = m.lru_stats_.num_find ∧
    (evictIfOver m).lru_stats_.num_find_ok = m.lru_stats_.num_find_ok ∧
    (evictIfOver m).lru_stats_.num_erase = m.lru_stats_.num_erase ∧
    (evictIfOver m).lru_stats_.num_clear = m.lru_stats_.num_clear ∧
    (m.lru_stats_.num_overflow ≤ (evictIfOver m).lru_stats_.num_overflow ∧
      (evictIfOver m).lru_stats_.num_overflow ≤ m.lru_stats_.num_overflow + 1) := by
  unfold evictIfOver
  split
  · cases m.lru_list_.getLast? with
    | none => exact ⟨rfl, rfl, rfl, rfl, rfl, le_refl _, by dsimp only; omega⟩
    | some oldest =>
      refine ⟨rfl, rfl, rfl, rfl, rfl, ?_, ?_⟩ <;> dsimp only <;> omega
  · exact ⟨rfl, rfl, rfl, rfl, rfl, le_refl _, by omega⟩

theorem stats_Insert (p : Policies) (now k v : Int) (m : LruMap) :
    (LruMap.Insert p now k v m).lru_stats_.num_insert = m.lru_stats_.num_insert + 1 ∧
    (LruMap.Insert p now k v m).lru_stats_.num_find = m.lru_stats_.num_find ∧
    (LruMap.Insert p now k v m).lru_stats_.num_find_ok = m.lru_stats_.num_find_ok ∧
    (LruMap.Insert p now k v m).lru_stats_.num_erase = m.lru_stats_.num_erase ∧
    (LruMap.Insert p now k v m).lru_stats_.num_clear = m.lru_stats_.num_clear ∧
    (m.lru_stats_.num_overflow ≤ (LruMap.Insert p now k v m).lru_stats_.num_overflow ∧
      (LruMap.Insert p now k v m).lru_stats_.num_overflow ≤ m.lru_stats_.num_overflow + 1) := by
  have h1 := stats_insertPhase1 k v m
  have h2 := stats_evictIfOver (insertPhase2 p now k v m)
  have h2s : (insertPhase2 p now k v m).lru_stats_ = m.lru_stats_ := by
    rw [insertPhase2_stats, h1]
  rw [h2s] at h2
  unfold LruMap.Insert
  dsimp only
  rcases h2 with ⟨ha, hb, hc, hd, he, hf, hg⟩
  exact ⟨by omega, hb, hc, hd, he, by omega, by omega⟩

theorem keymap_Find (p : Policies) (now k : Int) (m : LruMap) :
    (LruMap.Find p now k m).2.lru_key_map_ = m.lru_key_map_ := by
  unfold LruMap.Find
  dsimp only
  split <;> rfl

theorem Find_miss_spec (p : Policies) (now k : Int) (m : LruMap)
    (h : m.lru_key_map_.contains k = false) :
    (LruMap.Find p now k m).1 = none ∧
    (LruMap.Find p now k m).2.lru_list_ = m.lru_list_ ∧
    (LruMap.Find p now k m).2.lru_key_map_ = m.lru_key_map_ ∧
    (LruMap.Find p now k m).2.lru_stats_.num_find = m.lru_stats_.num_find + 1 ∧
    (LruMap.Find p now k m).2.lru_stats_.num_find_ok = m.lru_stats_.num_find_ok ∧
    (LruMap.Find p now k m).2.lru_stats_.num_insert = m.lru_stats_.num_insert ∧
    (LruMap.Find p now k m).2.lru_stats_.num_overflow = m.lru_stats_.num_overflow ∧
    (LruMap.Find p now k m).2.lru_stats_.num_erase = m.lru_stats_.num_erase ∧
    (LruMap.Find p now k m).2.lru_stats_.num_clear = m.lru_stats_.num_clear := by
  unfold LruMap.Find
  dsimp only
  rw [h]
  exact ⟨rfl, rfl, rfl, rfl, rfl, rfl, rfl, rfl, rfl⟩

theorem Find_hit_stats (p : Policies) (now k : Int) (m : LruMap)
    (h : m.lru_key_map_.contains k = true) :
    (LruMap.Find p now k m).2.lru_stats_.num_find = m.lru_stats_.num_find + 1 ∧
    (LruMap.Find p now k m).2.lru_stats_.num_find_ok = m.lru_stats_.num_find_ok + 1 ∧
    (LruMap.Find p now k m).2.lru_stats_.num_insert = m.lru_stats_.num_insert ∧
    (LruMap.Find p now k m).2.lru_stats_.num_overflow = m.lru_stats_.num_overflow ∧
    (LruMap.Find p now k m).2.lru_stats_.num_erase = m.lru_stats_.num_erase ∧
    (LruMap.Find p now k m).2.lru_stats_.num_clear = m.lru_stats_.num_clear := by
  unfold LruMap.Find
  dsimp only
  rw [h]
  exact ⟨rfl, rfl, rfl, rfl, rfl, rfl⟩

theorem Erase_stats (k : Int) (m : LruMap) :
    (LruMap.Erase k m).lru_stats_.num_erase = m.lru_stats_.num_erase + 1 ∧
    (LruMap.Erase k m).lru_stats_.num_find = m.lru_stats_.num_find ∧
    (LruMap.Erase k m).lru_stats_.num_find_ok = m.lru_stats_.num_find_ok ∧
    (LruMap.Erase k m).lru_stats_.num_insert = m.lru_stats_.num_insert ∧
    (LruMap.Erase k m).lru_stats_.num_overflow = m.lru_stats_.num_overflow ∧
    (LruMap.Erase k m).lru_stats_.num_clear = m.lru_stats_.num_clear := by
  unfold LruMap.Erase
  dsimp only
  split <;> exact ⟨rfl, rfl, rfl, rfl, rfl, rfl⟩

theorem Clear_spec (m : LruMap) :
    (LruMap.Clear m).lru_list_ = [] ∧
    (LruMap.Clear m).lru_key_map_ = [] ∧
    (LruMap.Clear m).lru_stats_.num_clear = m.lru_stats_.num_clear + 1 ∧
    (LruMap.Clear m).lru_stats_.num_find = m.lru_stats_.num_find ∧
    (LruMap.Clear m).lru_stats_.num_find_ok = m.lru_stats_.num_find_ok ∧
    (LruMap.Clear m).lru_stats_.num_insert = m.lru_stats_.num_insert ∧
    (LruMap.Clear m).lru_stats_.num_overflow = m.lru_stats_.num_overflow ∧
    (LruMap.Clear m).lru_stats_.num_erase = m.lru_stats_.num_erase := by
  exact ⟨rfl, rfl, rfl, rfl, rfl, rfl, rfl, rfl⟩

theorem Erase_miss_spec (k : Int) (m : LruMap)
    (h : m.lru_key_map_.contains k = false) :
    (LruMap.Erase k m).lru_list_ = m.lru_list_ ∧
    (LruMap.Erase k m).lru_key_map_ = m.lru_key_map_ := by
  unfold LruMap.Erase
  dsimp only
  rw [h]
  exact ⟨rfl, rfl⟩

theorem stats_applyOp_mono (p : Policies) (m : LruMap) (op : Op) :
    statsLe m.lru_stats_ (LruMap.applyOp p m op).lru_stats_ ∧
    (LruMap.applyOp p m op).lru_stats_.num_find_ok
        - (LruMap.applyOp p m op).lru_stats_.num_find
      ≤ m.lru_stats_.num_find_ok - m.lru_stats_.num_find ∧
    (LruMap.applyOp p m op).lru_stats_.num_overflow
        - (LruMap.applyOp p m op).lru_stats_.num_insert
      ≤ m.lru_stats_.num_overflow - m.lru_stats_.num_insert := by
  cases op with
  | insert now k v =>
    have := stats_Insert p now k v m
    unfold statsLe
    dsimp only [LruMap.applyOp]
    omega
  | find now k =>
    unfold statsLe
    dsimp only [LruMap.applyOp]
    cases h : m.lru_key_map_.contains k with
    | false => have := Find_miss_spec p now k m h; omega
    | true => have := Find_hit_stats p now k m h; omega
  | exists_ k =>
    unfold statsLe
    dsimp only [LruMap.applyOp]
    omega
  | erase k =>
    have := Erase_stats k m
    unfold statsLe
    dsimp only [LruMap.applyOp]
    omega
  | clear =>
    have := Clear_spec m
    unfold statsLe
    dsimp only [LruMap.applyOp]
    omega

theorem stats_runOps_mono (p : Policies) (m : LruMap) (ops : List Op) :
    statsLe m.lru_stats_ (LruMap.runOps p m ops).lru_stats_ ∧
    (LruMap.runOps p m ops).lru_stats_.num_find_ok
        - (LruMap.runOps p m ops).lru_stats_.num_find
      ≤ m.lru_stats_.num_find_ok - m.lru_stats_.num_find ∧
    (LruMap.runOps p m ops).lru_stats_.num_overflow
        - (LruMap.runOps p m ops).lru_stats_.num_insert
      ≤ m.lru_stats_.num_overflow - m.lru_stats_.num_insert := by
  induction ops generalizing m with
  | nil => exact ⟨⟨le_refl _, le_refl _, le_refl _, le_refl _, le_refl _, le_refl _⟩,
      le_refl _, le_refl _⟩
  | cons op rest ih =>
    have hstep : LruMap.runOps p m (op :: rest)
        = LruMap.runOps p (LruMap.applyOp p m op) rest := rfl
    rw [hstep]
    have h1 := stats_applyOp_mono p m op
    have h2 := ih (LruMap.applyOp p m op)
    unfold statsLe at h1 h2 ⊢
    exact ⟨⟨by omega, by omega, by omega, by omega, by omega, by omega⟩, by omega, by omega⟩

/-- C10: starting from a fresh map, the cumulative stats always satisfy
0 <= num_find_ok <= num_find and 0 <= num_overflow <= num_insert, and no
single public operation ever decreases any counter of any state. -/
theorem C10_stats_sanity (p : Policies) (cap : Int) (ops : List Op) :
    (0 ≤ (LruMap.runOps p (LruMap.init cap) ops).lru_stats_.num_find_ok ∧
      (LruMap.runOps p (LruMap.init cap) ops).lru_stats_.num_find_ok
        ≤ (LruMap.runOps p (LruMap.init cap) ops).lru_stats_.num_find ∧
      0 ≤ (LruMap.runOps p (LruMap.init cap) ops).lru_stats_.num_overflow ∧
      (LruMap.runOps p (LruMap.init cap) ops).lru_stats_.num_overflow
        ≤ (LruMap.runOps p (LruMap.init cap) ops).lru_stats_.num_insert) ∧
    ∀ (m : LruMap) (op : Op), statsLe m.lru_stats_ (LruMap.applyOp p m op).lru_stats_ := by
  have h := stats_runOps_mono p (LruMap.init cap) ops
  unfold statsLe at h
  have hz : (LruMap.init cap).lru_stats_ = LruMapStats.zero := rfl
  rw [hz] at h
  refine ⟨?_, fun m op => (stats_applyOp_mono p m op).1⟩
  unfold LruMapStats.zero at h
  dsimp only at h
  omega

theorem contains_eq_false_iff {l : List Int} {k : Int} : l.contains k = false ↔ k ∉ l := by
  constructor
  · intro h hmem
    rw [contains_iff_mem.2 hmem] at h
    cases h
  · intro h
    cases hc : l.contains k with
    | false => rfl
    | true => exact absurd (contains_iff_mem.1 hc) h

/-- C7: Find on an absent key counts the call in num_find, does not touch
num_find_ok, returns the null pointer, and leaves sequence and index
unchanged; Erase on an absent key counts the call in num_erase and leaves
sequence and index unchanged.  Both are total functions: a miss is an
ordinary return, not an error. -/
theorem C7_miss_is_benign (p : Policies) (now k : Int) (m : LruMap)
    (h : LruMap.Exists k m = false) :
    (LruMap.Find p now k m).1 = none ∧
    (LruMap.Find p now k m).2.lru_stats_.num_find = m.lru_stats_.num_find + 1 ∧
    (LruMap.Find p now k m).2.lru_stats_.num_find_ok = m.lru_stats_.num_find_ok ∧
    (LruMap.Find p now k m).2.lru_list_ = m.lru_list_ ∧
    (LruMap.Find p now k m).2.lru_key_map_ = m.lru_key_map_ ∧
    (LruMap.Erase k m).lru_stats_.num_erase = m.lru_stats_.num_erase + 1 ∧
    (LruMap.Erase k m).lru_list_ = m.lru_list_ ∧
    (LruMap.Erase k m).lru_key_map_ = m.lru_key_map_ := by
  have h' : m.lru_key_map_.contains k = false := h
  have hf := Find_miss_spec p now k m h'
  have he := Erase_miss_spec k m h'
  have hes := Erase_stats k m
  exact ⟨hf.1, hf.2.2.2.1, hf.2.2.2.2.1, hf.2.1, hf.2.2.1, hes.1, he.1, he.2⟩

theorem C7_miss_is_benign_witness :
    LruMap.Exists 5 (LruMap.init 3) = false ∧
    ((LruMap.Find ⟨false, false⟩ 0 5 (LruMap.init 3)).1 = none ∧
    (LruMap.Find ⟨false, false⟩ 0 5 (LruMap.init 3)).2.lru_stats_.num_find
      = (LruMap.init 3).lru_stats_.num_find + 1 ∧
    (LruMap.Find ⟨false, false⟩ 0 5 (LruMap.init 3)).2.lru_stats_.num_find_ok
      = (LruMap.init 3).lru_stats_.num_find_ok ∧
    (LruMap.Find ⟨false, false⟩ 0 5 (LruMap.init 3)).2.lru_list_ = (LruMap.init 3).lru_list_ ∧
    (LruMap.Find ⟨false, false⟩ 0 5 (LruMap.init 3)).2.lru_key_map_
      = (LruMap.init 3).lru_key_map_ ∧
    (LruMap.Erase 5 (LruMap.init 3)).lru_stats_.num_erase
      = (LruMap.init 3).lru_stats_.num_erase + 1 ∧
    (LruMap.Erase 5 (LruMap.init 3)).lru_list_ = (LruMap.init 3).lru_list_ ∧
    (LruMap.Erase 5 (LruMap.init 3)).lru_key_map_ = (LruMap.init 3).lru_key_map_) :=
  ⟨by decide, C7_miss_is_benign ⟨false, false⟩ 0 5 (LruMap.init 3) (by decide)⟩

/-! The front entry after Insert, and Find on the front entry. -/

theorem insertPhase1_front (k v : Int) (m : LruMap) (hcons : Consistent m) :
    ∃ f t, (insertPhase1 k v m).lru_list_ = f :: t ∧ f.key = k ∧ f.value = v := by
  rcases hcons with ⟨hperm, _⟩
  unfold insertPhase1
  split
  · next hmem =>
    have hkmem : k ∈ keysOf m := hperm.mem_iff.1 (contains_iff_mem.1 hmem)
    have hsome := find?_key_isSome_of_mem hkmem
    cases hfind : m.lru_list_.find? (fun e => e.key == k) with
    | none => rw [hfind] at hsome; cases hsome
    | some e0 =>
      refine ⟨{ e0 with value := v }, m.lru_list_.eraseP (fun e => e.key == k), ?_, ?_, rfl⟩
      · dsimp only
        rw [splice_eq_of_find? hfind]
        rfl
      · exact (key_of_find? hfind : e0.key = k)
  · exact ⟨KeyValueEntry.make k v, m.lru_list_, rfl, rfl, rfl⟩

theorem insertPhase1_keymap_contains (k v : Int) (m : LruMap) :
    (insertPhase1 k v m).lru_key_map_.contains k = true := by
  unfold insertPhase1
  split
  · next hmem => exact hmem
  · exact contains_iff_mem.2 (List.mem_cons_self k m.lru_key_map_)

theorem evictIfOver_front (m : LruMap) (g : KeyValueEntry) (t : List KeyValueEntry)
    (hlist : m.lru_list_ = g :: t) (hcap : 1 ≤ m.capacity_)
    (hnd : (keysOf m).Nodup) (hmem : m.lru_key_map_.contains g.key = true) :
    ∃ t2, (evictIfOver m).lru_list_ = g :: t2 ∧
      (evictIfOver m).lru_key_map_.contains g.key = true := by
  unfold evictIfOver
  split
  · next hover =>
    rw [LruMap.SizePrivate, hlist] at hover
    cases t with
    | nil => simp at hover; omega
    | cons x t' =>
      cases hlast : m.lru_list_.getLast? with
      | none =>
        rw [hlist] at hlast
        simp [List.getLast?_eq_getLast _ (List.cons_ne_nil g (x :: t'))] at hlast
      | some oldest =>
        have hdec : m.lru_list_.dropLast ++ [oldest] = m.lru_list_ :=
          List.dropLast_append_getLast? oldest (by simpa using hlast)
        have hdl : m.lru_list_.dropLast = g :: (x :: t').dropLast := by
          rw [hlist, List.dropLast_cons₂]
        have htl : x :: t' = (x :: t').dropLast ++ [oldest] := by
          have h2 := hdec
          rw [hdl, hlist, List.cons_append] at h2
          injection h2 with hh ht
          exact ht.symm
      -- the back entry's key differs from the front key
        have holdmem : oldest.key ∈ (x :: t').map KeyValueEntry.key := by
          rw [htl]
          simp
        have hgold : g.key ≠ oldest.key := by
          intro hgeq
          rw [keysOf, hlist, List.map_cons, List.nodup_cons] at hnd
          exact hnd.1 (hgeq ▸ holdmem)
        refine ⟨(x :: t').dropLast, ?_, ?_⟩
        · dsimp only
          rw [hdl]
        · dsimp only
          exact contains_iff_mem.2
            ((List.mem_erase_of_ne hgold).2 (contains_iff_mem.1 hmem))
  · exact ⟨t, hlist, hmem⟩

theorem Insert_front_spec (p : Policies) (now k v : Int) (m : LruMap) (hinv : LruInv m) :
    ∃ e t, (LruMap.Insert p now k v m).lru_list_ = e :: t ∧ e.key = k ∧ e.value = v ∧
      LruMap.Exists k (LruMap.Insert p now k v m) = true := by
  rcases hinv with ⟨hcons, hcap, hlen⟩
  rcases insertPhase1_front k v m hcons with ⟨f, t, hft, hfk, hfv⟩
  have h1cons := consistent_insertPhase1 k v m hcons
  have h1cap : (insertPhase1 k v m).capacity_ = m.capacity_ := capacity_insertPhase1 k v m
  have h1map := insertPhase1_keymap_contains k v m
  have hg := evictIfOver_front
    { insertPhase1 k v m with
        lru_list_ := updateFront (updateModifyTimestamp p now) (insertPhase1 k v m).lru_list_ }
    (updateModifyTimestamp p now f) t
    (by dsimp only; rw [hft]; rfl)
    (by dsimp only; rw [h1cap]; exact hcap)
    (by
      show List.Nodup _
      rw [keysOf]
      dsimp only
      rw [map_key_updateFront _ (key_updateModifyTimestamp p now) _]
      exact h1cons.2)
    (by
      dsimp only
      rw [key_updateModifyTimestamp, hfk]
      exact h1map)
  rcases hg with ⟨t2, hglist, hgmap⟩
  refine ⟨updateModifyTimestamp p now f, t2, ?_, ?_, ?_, ?_⟩
  · show (evictIfOver _).lru_list_ = _
    exact hglist
  · rw [key_updateModifyTimestamp, hfk]
  · rw [value_updateModifyTimestamp, hfv]
  · show (evictIfOver _).lru_key_map_.contains k = true
    have hkk : (updateModifyTimestamp p now f).key = k := by
      rw [key_updateModifyTimestamp, hfk]
    rw [hkk] at hgmap
    exact hgmap

theorem Find_front_hit (p : Policies) (now k : Int) (m : LruMap) (e : KeyValueEntry)
    (t : List KeyValueEntry) (hlist : m.lru_list_ = e :: t) (hk : e.key = k)
    (hmem : m.lru_key_map_.contains k = true) :
    (LruMap.Find p now k m).1 = some e.value := by
  unfold LruMap.Find
  dsimp only
  split
  · rw [hlist, spliceToFront,
      List.find?_cons_of_pos (p := fun x : KeyValueEntry => x.key == k) t (by simp [hk]),
      List.eraseP_cons_of_pos (p := fun x : KeyValueEntry => x.key == k) (by simp [hk])]
    show some (updateAccessTimestamp p now (incrementHitCount p e)).value = some e.value
    rw [value_updateAccessTimestamp, value_incrementHitCount]
  · next hc => exact absurd hmem hc

theorem keymap_Erase_hit (k : Int) (m : LruMap) (h : m.lru_key_map_.contains k = true) :
    (LruMap.Erase k m).lru_key_map_ = m.lru_key_map_.erase k := by
  unfold LruMap.Erase
  dsimp only
  split
  · rfl
  · next hc => exact absurd h hc

theorem evictIfOver_noop (m : LruMap) (h : ¬ m.SizePrivate > m.capacity_) :
    evictIfOver m = m := by
  unfold evictIfOver
  rw [if_neg h]

theorem insertPhase1_existing (k v : Int) (m : LruMap)
    (hex : m.lru_key_map_.contains k = true) :
    (insertPhase1 k v m).lru_list_
      = updateFront (fun e => { e with value := v }) (spliceToFront k m.lru_list_) ∧
    (insertPhase1 k v m).lru_key_map_ = m.lru_key_map_ := by
  unfold insertPhase1
  rw [if_pos hex]
  exact ⟨rfl, rfl⟩

theorem find?_eq_some_of_nodup (l : List KeyValueEntry) (e : KeyValueEntry) (k : Int)
    (hnd : (l.map KeyValueEntry.key).Nodup) (he : e ∈ l) (hk : e.key = k) :
    l.find? (fun x => x.key == k) = some e := by
  induction l with
  | nil => cases he
  | cons a rest ih =>
    rw [List.map_cons, List.nodup_cons] at hnd
    by_cases ha : (a.key == k) = true
    · rw [List.find?_cons_of_pos (p := fun x : KeyValueEntry => x.key == k) rest ha]
      cases List.mem_cons.1 he with
      | inl h => rw [h]
      | inr h =>
        exfalso
        apply hnd.1
        have hak : a.key = k := by simpa using ha
        rw [hak, ← hk]
        exact List.mem_map_of_mem KeyValueEntry.key h
    · rw [List.find?_cons_of_neg (p := fun x : KeyValueEntry => x.key == k) rest ha]
      cases List.mem_cons.1 he with
      | inl h =>
        exfalso
        apply ha
        rw [← h]
        simp [hk]
      | inr h => exact ih hnd.2 h

theorem Insert_existing_list (p : Policies) (now k v : Int) (m : LruMap)
    (hinv : LruInv m) (e : KeyValueEntry) (he : e ∈ m.lru_list_) (hk : e.key = k) :
    (LruMap.Insert p now k v m).lru_list_
      = updateModifyTimestamp p now { e with value := v }
        :: m.lru_list_.eraseP (fun x => x.key == k) ∧
    (LruMap.Insert p now k v m).lru_list_.length = m.lru_list_.length ∧
    (LruMap.Insert p now k v m).lru_stats_.num_overflow = m.lru_stats_.num_overflow := by
  rcases hinv with ⟨⟨hperm, hnd⟩, hcap, hlen⟩
  have hex : m.lru_key_map_.contains k = true :=
    contains_iff_mem.2 (hperm.mem_iff.2 (hk ▸ List.mem_map_of_mem KeyValueEntry.key he))
  have hfind : m.lru_list_.find? (fun x => x.key == k) = some e :=
    find?_eq_some_of_nodup m.lru_list_ e k hnd he hk
  have hsplice : spliceToFront k m.lru_list_
      = e :: m.lru_list_.eraseP (fun x => x.key == k) := splice_eq_of_find? hfind
  have h2list : (insertPhase2 p now k v m).lru_list_
      = updateModifyTimestamp p now { e with value := v }
        :: m.lru_list_.eraseP (fun x => x.key == k) := by
    rw [insertPhase2_list, (insertPhase1_existing k v m hex).1, hsplice]
    rfl
  have h2len : (insertPhase2 p now k v m).lru_list_.length = m.lru_list_.length := by
    rw [insertPhase2_list, length_updateFront, (insertPhase1_existing k v m hex).1,
      length_updateFront, (spliceToFront_perm k m.lru_list_).length_eq]
  have hnoev : evictIfOver (insertPhase2 p now k v m) = insertPhase2 p now k v m := by
    apply evictIfOver_noop
    rw [LruMap.SizePrivate, h2len, insertPhase2_capacity, capacity_insertPhase1]
    omega
  unfold LruMap.Insert
  dsimp only
  rw [hnoev]
  refine ⟨h2list, ?_, ?_⟩
  · rw [h2len]
  · show (insertPhase2 p now k v m).lru_stats_.num_overflow = _
    rw [insertPhase2_stats, stats_insertPhase1]

/-- C4: on any reachable state, Insert(k, v) immediately followed by
Find(k) returns v, and Erase(k) immediately followed by Find(k) returns
the null pointer. -/
theorem C4_round_trip (p : Policies) (m : LruMap) (now1 now2 k v : Int)
    (h : Reachable p m) :
    (LruMap.Find p now2 k (LruMap.Insert p now1 k v m)).1 = some v ∧
    (LruMap.Find p now2 k (LruMap.Erase k m)).1 = none := by
  have hinv := reachable_lruInv p m h
  constructor
  · rcases Insert_front_spec p now1 k v m hinv with ⟨e, t, hlist, hk, hv, hex⟩
    rw [Find_front_hit p now2 k (LruMap.Insert p now1 k v m) e t hlist hk hex, hv]
  · have hnot : (LruMap.Erase k m).lru_key_map_.contains k = false := by
      cases hc : m.lru_key_map_.contains k with
      | false =>
        rw [(Erase_miss_spec k m hc).2]
        exact hc
      | true =>
        rw [keymap_Erase_hit k m hc]
        have hmnd : m.lru_key_map_.Nodup := hinv.1.2.perm hinv.1.1.symm
        exact contains_eq_false_iff.2 (fun hmem => ((hmnd.mem_erase_iff).1 hmem).1 rfl)
    exact (Find_miss_spec p now2 k _ hnot).1

theorem C4_round_trip_witness :
    (LruMap.Find ⟨false, false⟩ 7 3 (LruMap.Insert ⟨false, false⟩ 6 3 30
      (LruMap.runOps ⟨false, false⟩ (LruMap.init 2) [Op.insert 0 1 10]))).1 = some 30 ∧
    (LruMap.Find ⟨false, false⟩ 7 3 (LruMap.Erase 3
      (LruMap.runOps ⟨false, false⟩ (LruMap.init 2) [Op.insert 0 1 10]))).1 = none :=
  C4_round_trip ⟨false, false⟩ (LruMap.runOps ⟨false, false⟩ (LruMap.init 2)
    [Op.insert 0 1 10]) 6 7 3 30 ⟨2, [Op.insert 0 1 10], by decide, rfl⟩

/-- C5: on any reachable state where key k is present, Insert(k, v2)
keeps the size unchanged, puts the entry for k at the front of the
sequence carrying the new value v2, makes an immediate Find(k) return v2,
and does not change the overflow counter (no eviction happens). -/
theorem C5_overwrite_existing (p : Policies) (m : LruMap) (now now2 k v2 : Int)
    (h : Reachable p m) (hex : LruMap.Exists k m = true) :
    LruMap.Size (LruMap.Insert p now k v2 m) = LruMap.Size m ∧
    (∃ e t, (LruMap.Insert p now k v2 m).lru_list_ = e :: t ∧ e.key = k ∧ e.value = v2) ∧
    (LruMap.Find p now2 k (LruMap.Insert p now k v2 m)).1 = some v2 ∧
    (LruMap.Insert p now k v2 m).lru_stats_.num_overflow = m.lru_stats_.num_overflow := by
  have hinv := reachable_lruInv p m h
  have hkmem : k ∈ keysOf m := hinv.1.1.mem_iff.1 (contains_iff_mem.1 hex)
  rcases List.mem_map.1 hkmem with ⟨e, he, hek⟩
  have hlist := Insert_existing_list p now k v2 m hinv e he hek
  rcases Insert_front_spec p now k v2 m hinv with ⟨f, t, hft, hfk, hfv, hfex⟩
  refine ⟨?_, ⟨f, t, hft, hfk, hfv⟩, ?_, hlist.2.2⟩
  · rw [LruMap.Size, LruMap.Size, LruMap.SizePrivate, LruMap.SizePrivate, hlist.2.1]
  · rw [Find_front_hit p now2 k (LruMap.Insert p now k v2 m) f t hft hfk hfex, hfv]

theorem C5_overwrite_existing_witness :
    LruMap.Exists 1 (LruMap.runOps ⟨false, false⟩ (LruMap.init 2)
      [Op.insert 0 1 10, Op.insert 0 2 20]) = true ∧
    (LruMap.Size (LruMap.Insert ⟨false, false⟩ 6 1 99 (LruMap.runOps ⟨false, false⟩
        (LruMap.init 2) [Op.insert 0 1 10, Op.insert 0 2 20]))
      = LruMap.Size (LruMap.runOps ⟨false, false⟩
        (LruMap.init 2) [Op.insert 0 1 10, Op.insert 0 2 20]) ∧
    (∃ e t, (LruMap.Insert ⟨false, false⟩ 6 1 99 (LruMap.runOps ⟨false, false⟩
        (LruMap.init 2) [Op.insert 0 1 10, Op.insert 0 2 20])).lru_list_ = e :: t ∧
        e.key = 1 ∧ e.value = 99) ∧
    (LruMap.Find ⟨false, false⟩ 7 1 (LruMap.Insert ⟨false, false⟩ 6 1 99
      (LruMap.runOps ⟨false, false⟩ (LruMap.init 2)
        [Op.insert 0 1 10, Op.insert 0 2 20]))).1 = some 99 ∧
    (LruMap.Insert ⟨false, false⟩ 6 1 99 (LruMap.runOps ⟨false, false⟩
        (LruMap.init 2) [Op.insert 0 1 10, Op.insert 0 2 20])).lru_stats_.num_overflow
      = (LruMap.runOps ⟨false, false⟩ (LruMap.init 2)
        [Op.insert 0 1 10, Op.insert 0 2 20]).lru_stats_.num_overflow) :=
  ⟨by decide, C5_overwrite_existing ⟨false, false⟩ (LruMap.runOps ⟨false, false⟩
    (LruMap.init 2) [Op.insert 0 1 10, Op.insert 0 2 20]) 6 7 1 99
    ⟨2, [Op.insert 0 1 10, Op.insert 0 2 20], by decide, rfl⟩ (by decide)⟩

/-- C9: with timestamping and hit counting active, Insert on an existing
key mutates the entry in place: the new front entry keeps the old entry's
access timestamp and hit counter, and only the value, the modify
timestamp, and the position (now the front) change; the rest of the
sequence is the old sequence without that entry. -/
theorem C9_overwrite_preserves_fields (m : LruMap) (now k v2 : Int) (e : KeyValueEntry)
    (h : Reachable ⟨true, true⟩ m) (he : e ∈ m.lru_list_) (hk : e.key = k) :
    (LruMap.Insert ⟨true, true⟩ now k v2 m).lru_list_
      = { e with value := v2, modify_time_usecs := now }
        :: m.lru_list_.eraseP (fun x => x.key == k) ∧
    ({ e with value := v2, modify_time_usecs := now } : KeyValueEntry).access_time_usecs
      = e.access_time_usecs ∧
    ({ e with value := v2, modify_time_usecs := now } : KeyValueEntry).hit_count
      = e.hit_count ∧
    ({ e with value := v2, modify_time_usecs := now } : KeyValueEntry).key = e.key := by
  have hinv := reachable_lruInv ⟨true, true⟩ m h
  have hl := Insert_existing_list ⟨true, true⟩ now k v2 m hinv e he hk
  refine ⟨?_, rfl, rfl, rfl⟩
  rw [hl.1]
  rfl

theorem C9_overwrite_preserves_fields_witness :
    ((LruMap.Insert ⟨true, true⟩ 7 1 99 (LruMap.runOps ⟨true, true⟩ (LruMap.init 2)
        [Op.insert 5 1 10, Op.find 6 1])).lru_list_
      = { (⟨1, 10, 6, 5, 1⟩ : KeyValueEntry) with value := 99, modify_time_usecs := 7 }
        :: (LruMap.runOps ⟨true, true⟩ (LruMap.init 2)
          [Op.insert 5 1 10, Op.find 6 1]).lru_list_.eraseP (fun x => x.key == 1) ∧
    ({ (⟨1, 10, 6, 5, 1⟩ : KeyValueEntry) with value := 99, modify_time_usecs := 7 }
        : KeyValueEntry).access_time_usecs
      = (⟨1, 10, 6, 5, 1⟩ : KeyValueEntry).access_time_usecs ∧
    ({ (⟨1, 10, 6, 5, 1⟩ : KeyValueEntry) with value := 99, modify_time_usecs := 7 }
        : KeyValueEntry).hit_count
      = (⟨1, 10, 6, 5, 1⟩ : KeyValueEntry).hit_count ∧
    ({ (⟨1, 10, 6, 5, 1⟩ : KeyValueEntry) with value := 99, modify_time_usecs := 7 }
        : KeyValueEntry).key
      = (⟨1, 10, 6, 5, 1⟩ : KeyValueEntry).key) :=
  C9_overwrite_preserves_fields (LruMap.runOps ⟨true, true⟩ (LruMap.init 2)
      [Op.insert 5 1 10, Op.find 6 1]) 7 1 99 ⟨1, 10, 6, 5, 1⟩
    ⟨2, [Op.insert 5 1 10, Op.find 6 1], by decide, rfl⟩ (by decide) rfl

theorem insertPhase1_fresh (k v : Int) (m : LruMap)
    (h : m.lru_key_map_.contains k = false) :
    (insertPhase1 k v m).lru_list_ = KeyValueEntry.make k v :: m.lru_list_ ∧
    (insertPhase1 k v m).lru_key_map_ = k :: m.lru_key_map_ := by
  unfold insertPhase1
  rw [if_neg (by rw [h]; exact Bool.false_ne_true)]
  exact ⟨rfl, rfl⟩

theorem evictIfOver_over (m : LruMap) (hover : m.SizePrivate > m.capacity_)
    (hne : m.lru_list_ ≠ []) :
    (evictIfOver m).lru_list_ = m.lru_list_.dropLast ∧
    (evictIfOver m).lru_stats_.num_overflow = m.lru_stats_.num_overflow + 1 ∧
    (evictIfOver m).lru_key_map_ = m.lru_key_map_.erase (m.lru_list_.getLast hne).key := by
  unfold evictIfOver
  rw [if_pos hover]
  cases hlast : m.lru_list_.getLast? with
  | none =>
    exact absurd (List.getLast?_eq_getLast _ hne) (by simp [hlast])
  | some oldest =>
    have hsome := List.getLast?_eq_getLast m.lru_list_ hne
    rw [hlast] at hsome
    have : oldest = m.lru_list_.getLast hne := Option.some.inj hsome
    rw [this]
    exact ⟨rfl, rfl, rfl⟩

theorem take_append_absorb (A X : List Int) (c : Nat) :
    (A ++ X.take c).take c = (A ++ X).take c := by
  rw [List.take_append_eq_append_take, List.take_append_eq_append_take, List.take_take,
    Nat.min_eq_left (Nat.sub_le c A.length)]

theorem Insert_fresh_spec (p : Policies) (now k v : Int) (m : LruMap) (cap : Nat)
    (hcapeq : m.capacity_ = (cap : Int)) (hinv : LruInv m)
    (hfresh : m.lru_key_map_.contains k = false) :
    keysOf (LruMap.Insert p now k v m) = (k :: keysOf m).take cap ∧
    (LruMap.Insert p now k v m).lru_stats_.num_overflow
      = m.lru_stats_.num_overflow + (if m.lru_list_.length = cap then 1 else 0) ∧
    (LruMap.Insert p now k v m).lru_stats_.num_insert = m.lru_stats_.num_insert + 1 ∧
    (LruMap.Insert p now k v m).lru_stats_.num_find = m.lru_stats_.num_find ∧
    (LruMap.Insert p now k v m).lru_stats_.num_find_ok = m.lru_stats_.num_find_ok ∧
    (LruMap.Insert p now k v m).lru_stats_.num_erase = m.lru_stats_.num_erase ∧
    (LruMap.Insert p now k v m).lru_stats_.num_clear = m.lru_stats_.num_clear := by
  have hcap1 : 1 ≤ m.capacity_ := hinv.2.1
  have hlenI : (m.lru_list_.length : Int) ≤ m.capacity_ := hinv.2.2
  have h1 := insertPhase1_fresh k v m hfresh
  have h2list : (insertPhase2 p now k v m).lru_list_
      = updateModifyTimestamp p now (KeyValueEntry.make k v) :: m.lru_list_ := by
    rw [insertPhase2_list, h1.1]
    rfl
  have h2keys : keysOf (insertPhase2 p now k v m) = k :: keysOf m := by
    rw [keysOf, h2list, List.map_cons, key_updateModifyTimestamp]
    rfl
  have h2cap : (insertPhase2 p now k v m).capacity_ = (cap : Int) := by
    rw [insertPhase2_capacity, capacity_insertPhase1, hcapeq]
  have h2stats : (insertPhase2 p now k v m).lru_stats_ = m.lru_stats_ := by
    rw [insertPhase2_stats, stats_insertPhase1]
  have h2len : (insertPhase2 p now k v m).lru_list_.length = m.lru_list_.length + 1 := by
    rw [h2list]
    rfl
  have hlen' : m.lru_list_.length ≤ cap := by
    rw [hcapeq] at hlenI
    exact_mod_cast hlenI
  have hstEq := stats_evictIfOver (insertPhase2 p now k v m)
  by_cases hfull : m.lru_list_.length = cap
  · have hover : (insertPhase2 p now k v m).SizePrivate
        > (insertPhase2 p now k v m).capacity_ := by
      rw [LruMap.SizePrivate, h2len, h2cap, hfull]
      push_cast
      omega
    have hne : (insertPhase2 p now k v m).lru_list_ ≠ [] := by
      rw [h2list]
      exact List.cons_ne_nil _ _
    have hev := evictIfOver_over (insertPhase2 p now k v m) hover hne
    unfold LruMap.Insert
    dsimp only
    refine ⟨?_, ?_, ?_, ?_, ?_, ?_, ?_⟩
    · show List.map KeyValueEntry.key (evictIfOver (insertPhase2 p now k v m)).lru_list_ = _
      rw [hev.1, h2list]
      obtain ⟨c2, rfl⟩ : ∃ c2, cap = c2 + 1 := ⟨cap - 1, by omega⟩
      cases hml : m.lru_list_ with
      | nil =>
        rw [hml] at hfull
        simp at hfull
      | cons y t =>
        rw [hml] at hfull
        rw [List.dropLast_cons₂, List.map_cons, key_updateModifyTimestamp,
          List.take_succ_cons]
        show k :: List.map KeyValueEntry.key (y :: t).dropLast = k :: (keysOf m).take c2
        congr 1
        rw [keysOf, hml, List.dropLast_eq_take, List.map_take]
        congr 1
        simp only [List.length_cons] at hfull ⊢
        omega
    · show (evictIfOver _).lru_stats_.num_overflow = _
      rw [hev.2.1, h2stats, if_pos hfull]
    · show (evictIfOver _).lru_stats_.num_insert + 1 = _
      rw [hstEq.1, h2stats]
    · show (evictIfOver _).lru_stats_.num_find = _
      rw [hstEq.2.1, h2stats]
    · show (evictIfOver _).lru_stats_.num_find_ok = _
      rw [hstEq.2.2.1, h2stats]
    · show (evictIfOver _).lru_stats_.num_erase = _
      rw [hstEq.2.2.2.1, h2stats]
    · show (evictIfOver _).lru_stats_.num_clear = _
      rw [hstEq.2.2.2.2.1, h2stats]
  · have hnoev : evictIfOver (insertPhase2 p now k v m) = insertPhase2 p now k v m := by
      apply evictIfOver_noop
      rw [LruMap.SizePrivate, h2len, h2cap]
      have : m.lru_list_.length < cap := by omega
      push_cast
      omega
    unfold LruMap.Insert
    dsimp only
    rw [hnoev]
    refine ⟨?_, ?_, ?_, ?_, ?_, ?_, ?_⟩
    · show keysOf (insertPhase2 p now k v m) = _
      rw [h2keys]
      have hlt : (k :: keysOf m).length ≤ cap := by
        rw [List.length_cons, keysOf, List.length_map]
        omega
      exact (List.take_of_length_le hlt).symm
    · show (insertPhase2 p now k v m).lru_stats_.num_overflow = _
      rw [h2stats, if_neg hfull]
      omega
    · show (insertPhase2 p now k v m).lru_stats_.num_insert + 1 = _
      rw [h2stats]
    · show (insertPhase2 p now k v m).lru_stats_.num_find = _
      rw [h2stats]
    · show (insertPhase2 p now k v m).lru_stats_.num_find_ok = _
      rw [h2stats]
    · show (insertPhase2 p now k v m).lru_stats_.num_erase = _
      rw [h2stats]
    · show (insertPhase2 p now k v m).lru_stats_.num_clear = _
      rw [h2stats]

theorem insertRun_spec (p : Policies) (kvs : List (Int × Int)) :
    ∀ (st : LruMap) (cap : Nat), st.capacity_ = (cap : Int) → LruInv st →
      (firstKeys kvs).Nodup → (∀ x ∈ firstKeys kvs, x ∉ keysOf st) →
      keysOf (LruMap.runOps p st (insOps kvs))
          = ((firstKeys kvs).reverse ++ keysOf st).take cap ∧
      (LruMap.runOps p st (insOps kvs)).lru_stats_.num_overflow
          = st.lru_stats_.num_overflow
            + ((st.lru_list_.length + kvs.length - cap : Nat) : Int) ∧
      (LruMap.runOps p st (insOps kvs)).lru_stats_.num_insert
          = st.lru_stats_.num_insert + (kvs.length : Int) ∧
      (LruMap.runOps p st (insOps kvs)).lru_stats_.num_find = st.lru_stats_.num_find ∧
      (LruMap.runOps p st (insOps kvs)).lru_stats_.num_find_ok
          = st.lru_stats_.num_find_ok ∧
      (LruMap.runOps p st (insOps kvs)).lru_stats_.num_erase = st.lru_stats_.num_erase ∧
      (LruMap.runOps p st (insOps kvs)).lru_stats_.num_clear = st.lru_stats_.num_clear := by
  induction kvs with
  | nil =>
    intro st cap hcapeq hinv hnd hfresh
    have hle : st.lru_list_.length ≤ cap := by
      have := hinv.2.2
      rw [hcapeq] at this
      exact_mod_cast this
    refine ⟨?_, ?_, ?_, rfl, rfl, rfl, rfl⟩
    · show keysOf st = ((firstKeys []).reverse ++ keysOf st).take cap
      rw [firstKeys, List.map_nil, List.reverse_nil, List.nil_append]
      have hl : (keysOf st).length ≤ cap := by
        rw [keysOf, List.length_map]
        exact hle
      exact (List.take_of_length_le hl).symm
    · show st.lru_stats_.num_overflow = _
      have hz : (st.lru_list_.length + List.length ([] : List (Int × Int)) - cap : Nat)
          = 0 := by
        simp only [List.length_nil]
        omega
      rw [hz]
      simp
    · show st.lru_stats_.num_insert = _
      simp
  | cons kv rest ih =>
    intro st cap hcapeq hinv hnd hfresh
    have hL0 : st.lru_list_.length ≤ cap := by
      have := hinv.2.2
      rw [hcapeq] at this
      exact_mod_cast this
    have hndc : kv.1 ∉ rest.map Prod.fst ∧ (rest.map Prod.fst).Nodup := by
      rw [firstKeys, List.map_cons, List.nodup_cons] at hnd
      exact hnd
    have hfresh1 : st.lru_key_map_.contains kv.1 = false := by
      apply contains_eq_false_iff.2
      intro hmem
      exact hfresh kv.1 (by rw [firstKeys, List.map_cons]; exact List.mem_cons_self _ _)
        (hinv.1.1.mem_iff.1 hmem)
    have hstep := Insert_fresh_spec p 0 kv.1 kv.2 st cap hcapeq hinv hfresh1
    have hinv1 : LruInv (LruMap.Insert p 0 kv.1 kv.2 st) :=
      lruInv_Insert p 0 kv.1 kv.2 st hinv
    have hcap1 : (LruMap.Insert p 0 kv.1 kv.2 st).capacity_ = (cap : Int) :=
      (capacity_Insert p 0 kv.1 kv.2 st).trans hcapeq
    have hfresh2 : ∀ x ∈ firstKeys rest, x ∉ keysOf (LruMap.Insert p 0 kv.1 kv.2 st) := by
      intro x hx hmem
      rw [hstep.1] at hmem
      have hsub : x ∈ kv.1 :: keysOf st := List.take_subset _ _ hmem
      cases List.mem_cons.1 hsub with
      | inl hxk =>
        exact hndc.1 (hxk ▸ hx)
      | inr hxm =>
        exact hfresh x (by
          rw [firstKeys, List.map_cons]
          exact List.mem_cons_of_mem _ hx) hxm
    have hIH := ih (LruMap.Insert p 0 kv.1 kv.2 st) cap hcap1 hinv1 hndc.2 hfresh2
    have hrun : LruMap.runOps p st (insOps (kv :: rest))
        = LruMap.runOps p (LruMap.Insert p 0 kv.1 kv.2 st) (insOps rest) := rfl
    have hlen1 : (LruMap.Insert p 0 kv.1 kv.2 st).lru_list_.length
        = min cap (st.lru_list_.length + 1) := by
      have hl : keysOf (LruMap.Insert p 0 kv.1 kv.2 st) = (kv.1 :: keysOf st).take cap :=
        hstep.1
      have hlk : (keysOf (LruMap.Insert p 0 kv.1 kv.2 st)).length
          = (LruMap.Insert p 0 kv.1 kv.2 st).lru_list_.length := by
        rw [keysOf, List.length_map]
      rw [hl, List.length_take, List.length_cons, keysOf, List.length_map] at hlk
      omega
    refine ⟨?_, ?_, ?_, ?_, ?_, ?_, ?_⟩
    · rw [hrun, hIH.1, hstep.1, take_append_absorb]
      congr 1
      rw [firstKeys, firstKeys, List.map_cons, List.reverse_cons, List.append_assoc]
      rfl
    · rw [hrun, hIH.2.1, hstep.2.1]
      simp only [List.length_cons]
      rw [hlen1]
      by_cases hfull : st.lru_list_.length = cap
      · rw [if_pos hfull]
        have h1 : min cap (st.lru_list_.length + 1) = cap := by omega
        rw [h1, hfull]
        omega
      · rw [if_neg hfull]
        have h1 : min cap (st.lru_list_.length + 1) = st.lru_list_.length + 1 := by omega
        rw [h1]
        omega
    · rw [hrun, hIH.2.2.1, hstep.2.2.1]
      simp only [List.length_cons]
      push_cast
      omega
    · rw [hrun, hIH.2.2.2.1, hstep.2.2.2.1]
    · rw [hrun, hIH.2.2.2.2.1, hstep.2.2.2.2.1]
    · rw [hrun, hIH.2.2.2.2.2.1, hstep.2.2.2.2.2.1]
    · rw [hrun, hIH.2.2.2.2.2.2, hstep.2.2.2.2.2.2]

theorem mem_drop_take_iff (l : List Int) (i a b : Nat) (k : Int)
    (hnd : l.Nodup) (hget : l[i]? = some k) :
    k ∈ (l.take b).drop a ↔ a ≤ i ∧ i < b := by
  have hi : i < l.length := by
    by_contra hge
    rw [List.getElem?_eq_none (by omega)] at hget
    cases hget
  constructor
  · intro hmem
    rcases List.getElem_of_mem hmem with ⟨j, hj, hje⟩
    have hj? : ((l.take b).drop a)[j]? = some k := by
      rw [List.getElem?_eq_getElem hj, hje]
    rw [List.getElem?_drop] at hj?
    have hab : a + j < b := by
      by_contra hge
      rw [List.getElem?_eq_none (by rw [List.length_take]; omega)] at hj?
      cases hj?
    rw [List.getElem?_take_of_lt hab] at hj?
    have hij : i = a + j := List.getElem?_inj hi hnd (by rw [hget, hj?])
    omega
  · rintro ⟨ha, hb⟩
    have hsome : ((l.take b).drop a)[i - a]? = some k := by
      rw [List.getElem?_drop]
      have hia : a + (i - a) = i := by omega
      rw [hia, List.getElem?_take_of_lt hb, hget]
    exact List.getElem?_mem hsome

/-- C2: from an empty map of capacity cap >= 1, inserting distinct keys
k0, k1, ... in order with no intervening Finds keeps, after n inserts,
exactly the last min(n, cap) keys (front to back: the reverse of the
inserted order, truncated to cap), with the index a permutation of those
keys (each overflow removed the evicted key from both structures), the
overflow counter equal to max(0, n - cap) (exactly one eviction per
overflowing insert), and key ki present after n inserts exactly when
n <= i + cap: eviction follows insertion order, k0 first, then k1, and
so on, regardless of key values. -/
theorem C2_eviction_order (p : Policies) (cap : Nat) (hcap : 1 ≤ cap)
    (kvs : List (Int × Int)) (hnd : (firstKeys kvs).Nodup) (n : Nat)
    (hn : n ≤ kvs.length) :
    keysOf (LruMap.runOps p (LruMap.init (cap : Int)) (insOps (kvs.take n)))
      = ((firstKeys kvs).take n).reverse.take cap ∧
    (LruMap.runOps p (LruMap.init (cap : Int)) (insOps (kvs.take n))).lru_key_map_.Perm
      (keysOf (LruMap.runOps p (LruMap.init (cap : Int)) (insOps (kvs.take n)))) ∧
    (LruMap.runOps p (LruMap.init (cap : Int))
        (insOps (kvs.take n))).lru_stats_.num_overflow = ((n - cap : Nat) : Int) ∧
    ∀ (i : Nat) (k : Int), (firstKeys kvs)[i]? = some k → i < n →
      (k ∈ keysOf (LruMap.runOps p (LruMap.init (cap : Int)) (insOps (kvs.take n)))
        ↔ n ≤ i + cap) := by
  have hcapI : (1 : Int) ≤ (cap : Int) := by exact_mod_cast hcap
  have hinv0 : LruInv (LruMap.init (cap : Int)) := lruInv_init _ hcapI
  have hfk : firstKeys (kvs.take n) = (firstKeys kvs).take n := by
    rw [firstKeys, firstKeys]
    exact List.map_take Prod.fst kvs n
  have hndt : (firstKeys (kvs.take n)).Nodup := by
    rw [hfk]
    exact hnd.sublist (List.take_sublist n _)
  have hfresh : ∀ x ∈ firstKeys (kvs.take n), x ∉ keysOf (LruMap.init (cap : Int)) := by
    intro x _ hmem
    rw [show keysOf (LruMap.init (cap : Int)) = [] from rfl] at hmem
    cases hmem
  have hrun := insertRun_spec p (kvs.take n) (LruMap.init (cap : Int)) cap rfl
    hinv0 hndt hfresh
  have hkeys : keysOf (LruMap.runOps p (LruMap.init (cap : Int)) (insOps (kvs.take n)))
      = ((firstKeys kvs).take n).reverse.take cap := by
    rw [hrun.1, hfk]
    congr 1
    rw [show keysOf (LruMap.init (cap : Int)) = [] from rfl, List.append_nil]
  have hlent : (kvs.take n).length = n := by
    rw [List.length_take]
    omega
  refine ⟨hkeys, ?_, ?_, ?_⟩
  · exact (lruInv_runOps p _ _ hinv0).1.1
  · rw [hrun.2.1, hlent]
    show (0 : Int) + (((0 : Nat) + n - cap : Nat) : Int) = ((n - cap : Nat) : Int)
    omega
  · intro i k hik hin
    rw [hkeys]
    by_cases hcn : cap ≤ n
    · rw [List.take_reverse]
      have hlen2 : ((firstKeys kvs).take n).length = n := by
        rw [List.length_take, firstKeys, List.length_map]
        omega
      rw [hlen2, List.mem_reverse]
      rw [mem_drop_take_iff (firstKeys kvs) i (n - cap) n k hnd hik]
      omega
    · have hlen2 : (((firstKeys kvs).take n).reverse).length ≤ cap := by
        rw [List.length_reverse, List.length_take]
        omega
      rw [List.take_of_length_le hlen2, List.mem_reverse]
      have hmem := mem_drop_take_iff (firstKeys kvs) i 0 n k hnd hik
      rw [List.drop_zero] at hmem
      rw [hmem]
      omega

theorem C2_eviction_order_witness :
    1 ≤ 2 ∧ (firstKeys [(1, 10), (2, 20), (3, 30)]).Nodup ∧
      3 ≤ List.length [(1, 10), (2, 20), (3, 30)] ∧
    (keysOf (LruMap.runOps ⟨false, false⟩ (LruMap.init (2 : Nat))
        (insOps (List.take 3 [(1, 10), (2, 20), (3, 30)])))
      = ((firstKeys [(1, 10), (2, 20), (3, 30)]).take 3).reverse.take 2 ∧
    (LruMap.runOps ⟨false, false⟩ (LruMap.init (2 : Nat))
        (insOps (List.take 3 [(1, 10), (2, 20), (3, 30)]))).lru_key_map_.Perm
      (keysOf (LruMap.runOps ⟨false, false⟩ (LruMap.init (2 : Nat))
        (insOps (List.take 3 [(1, 10), (2, 20), (3, 30)])))) ∧
    (LruMap.runOps ⟨false, false⟩ (LruMap.init (2 : Nat))
        (insOps (List.take 3 [(1, 10), (2, 20), (3, 30)]))).lru_stats_.num_overflow
      = ((3 - 2 : Nat) : Int) ∧
    ∀ (i : Nat) (k : Int), (firstKeys [(1, 10), (2, 20), (3, 30)])[i]? = some k →
      i < 3 →
      (k ∈ keysOf (LruMap.runOps ⟨false, false⟩ (LruMap.init (2 : Nat))
          (insOps (List.take 3 [(1, 10), (2, 20), (3, 30)])))
        ↔ 3 ≤ i + 2)) :=
  ⟨by decide, by decide, by decide,
    C2_eviction_order ⟨false, false⟩ 2 (by decide) [(1, 10), (2, 20), (3, 30)]
      (by decide) 3 (by decide)⟩

theorem Find_hit_keys (p : Policies) (now k : Int) (m : LruMap)
    (hmem : m.lru_key_map_.contains k = true) (e : KeyValueEntry)
    (hfind : m.lru_list_.find? (fun x => x.key == k) = some e) :
    keysOf (LruMap.Find p now k m).2 = e.key :: (keysOf m).eraseP (fun x => x == k) ∧
    (LruMap.Find p now k m).1 = some e.value := by
  unfold LruMap.Find
  dsimp only
  split
  · constructor
    · rw [keysOf]
      dsimp only
      rw [splice_eq_of_find? hfind]
      dsimp only [updateFront]
      rw [List.map_cons, key_updateAccessTimestamp, key_incrementHitCount, map_key_eraseP]
      rfl
    · rw [splice_eq_of_find? hfind]
      dsimp only [updateFront]
      rw [List.head?_cons, Option.map_some', value_updateAccessTimestamp,
        value_incrementHitCount]
  · next hc => exact absurd hmem hc

/-- C3: with capacity cap >= 2, after inserting cap distinct keys in
order into an empty map, a successful Find of the first key k0 relocates
it to the front, and inserting one further fresh key then evicts k1 (the
new least-recently-used key) and not k0: k0 and the new key stay, k1 is
gone. -/
theorem C3_find_refreshes_recency (p : Policies) (cap : Nat) (hcap : 2 ≤ cap)
    (kvs : List (Int × Int)) (hnd : (firstKeys kvs).Nodup) (hlen : kvs.length = cap)
    (knew vnew now1 now2 k0 k1 : Int) (hknew : knew ∉ firstKeys kvs)
    (hk0 : (firstKeys kvs)[0]? = some k0) (hk1 : (firstKeys kvs)[1]? = some k1) :
    (LruMap.Find p now1 k0 (LruMap.runOps p (LruMap.init (cap : Int))
        (insOps kvs))).1.isSome = true ∧
    (keysOf (LruMap.Find p now1 k0 (LruMap.runOps p (LruMap.init (cap : Int))
        (insOps kvs))).2).head? = some k0 ∧
    k1 ∉ keysOf (LruMap.Insert p now2 knew vnew (LruMap.Find p now1 k0
        (LruMap.runOps p (LruMap.init (cap : Int)) (insOps kvs))).2) ∧
    k0 ∈ keysOf (LruMap.Insert p now2 knew vnew (LruMap.Find p now1 k0
        (LruMap.runOps p (LruMap.init (cap : Int)) (insOps kvs))).2) ∧
    knew ∈ keysOf (LruMap.Insert p now2 knew vnew (LruMap.Find p now1 k0
        (LruMap.runOps p (LruMap.init (cap : Int)) (insOps kvs))).2) := by
  have hcapI : (1 : Int) ≤ (cap : Int) := by
    have : 1 ≤ cap := by omega
    exact_mod_cast this
  have hinv0 := lruInv_init (cap : Int) hcapI
  have hfresh0 : ∀ x ∈ firstKeys kvs, x ∉ keysOf (LruMap.init (cap : Int)) := by
    intro x _ hmem
    rw [show keysOf (LruMap.init (cap : Int)) = [] from rfl] at hmem
    cases hmem
  have hrun := insertRun_spec p kvs (LruMap.init (cap : Int)) cap rfl hinv0 hnd hfresh0
  have hKlen : (firstKeys kvs).length = cap := by
    rw [firstKeys, List.length_map, hlen]
  have hfullkeys : keysOf (LruMap.runOps p (LruMap.init (cap : Int)) (insOps kvs))
      = (firstKeys kvs).reverse := by
    rw [hrun.1, show keysOf (LruMap.init (cap : Int)) = [] from rfl, List.append_nil]
    exact List.take_of_length_le (by rw [List.length_reverse, hKlen])
  obtain ⟨R, hK⟩ : ∃ R, firstKeys kvs = k0 :: R := by
    cases hKc : firstKeys kvs with
    | nil =>
      rw [hKc] at hKlen
      simp at hKlen
      omega
    | cons a R =>
      refine ⟨R, ?_⟩
      rw [hKc] at hk0
      simp at hk0
      rw [hk0]
  obtain ⟨R2, hR⟩ : ∃ R2, R = k1 :: R2 := by
    cases hRc : R with
    | nil =>
      rw [hK, hRc] at hKlen
      simp at hKlen
      omega
    | cons b R2 =>
      refine ⟨R2, ?_⟩
      rw [hK, hRc] at hk1
      simp at hk1
      rw [hk1]
  have hndK : k0 ∉ R ∧ R.Nodup := by
    rw [hK, List.nodup_cons] at hnd
    exact hnd
  have hndR : k1 ∉ R2 ∧ R2.Nodup := by
    have := hndK.2
    rw [hR, List.nodup_cons] at this
    exact this
  have hinvfull := lruInv_runOps p _ (insOps kvs) hinv0
  have hk0K : k0 ∈ firstKeys kvs := List.getElem?_mem hk0
  have hk1K : k1 ∈ firstKeys kvs := List.getElem?_mem hk1
  have hk0mem : k0 ∈ keysOf (LruMap.runOps p (LruMap.init (cap : Int)) (insOps kvs)) := by
    rw [hfullkeys, List.mem_reverse]
    exact hk0K
  have hcont : (LruMap.runOps p (LruMap.init (cap : Int))
      (insOps kvs)).lru_key_map_.contains k0 = true :=
    contains_iff_mem.2 (hinvfull.1.1.mem_iff.2 hk0mem)
  have hsome : ((LruMap.runOps p (LruMap.init (cap : Int))
      (insOps kvs)).lru_list_.find? (fun x => x.key == k0)).isSome :=
    find?_key_isSome_of_mem hk0mem
  cases hfind : (LruMap.runOps p (LruMap.init (cap : Int))
      (insOps kvs)).lru_list_.find? (fun x => x.key == k0) with
  | none =>
    rw [hfind] at hsome
    cases hsome
  | some e0 =>
  have he0k : e0.key = k0 := key_of_find? hfind
  have hfk := Find_hit_keys p now1 k0 (LruMap.runOps p (LruMap.init (cap : Int))
    (insOps kvs)) hcont e0 hfind
  have hnomatch : ∀ b ∈ R.reverse, ¬ ((fun x : Int => x == k0) b = true) := by
    intro b hb hbe
    have : b = k0 := by simpa using hbe
    rw [List.mem_reverse] at hb
    exact hndK.1 (this ▸ hb)
  have hkeysfind : keysOf (LruMap.Find p now1 k0 (LruMap.runOps p
      (LruMap.init (cap : Int)) (insOps kvs))).2 = k0 :: R.reverse := by
    rw [hfk.1, he0k, hfullkeys, hK, List.reverse_cons]
    congr 1
    rw [List.eraseP_append_right _ hnomatch,
      List.eraseP_cons_of_pos (p := fun x : Int => x == k0) (by simp), List.append_nil]
  refine ⟨?_, ?_, ?_, ?_, ?_⟩
  · rw [hfk.2]
    rfl
  · rw [hkeysfind]
    rfl
  all_goals {
    have hinvfind := lruInv_Find p now1 k0 _ hinvfull
    have hcapfind : (LruMap.Find p now1 k0 (LruMap.runOps p (LruMap.init (cap : Int))
        (insOps kvs))).2.capacity_ = (cap : Int) := by
      rw [capacity_Find]
      exact capacity_runOps p _ (insOps kvs)
    have hfreshnew : (LruMap.Find p now1 k0 (LruMap.runOps p (LruMap.init (cap : Int))
        (insOps kvs))).2.lru_key_map_.contains knew = false := by
      apply contains_eq_false_iff.2
      intro hmem
      have hmem2 : knew ∈ keysOf (LruMap.Find p now1 k0 (LruMap.runOps p
          (LruMap.init (cap : Int)) (insOps kvs))).2 := hinvfind.1.1.mem_iff.1 hmem
      rw [hkeysfind] at hmem2
      cases List.mem_cons.1 hmem2 with
      | inl h =>
        exact hknew (h ▸ hk0K)
      | inr h =>
        rw [List.mem_reverse] at h
        exact hknew (by rw [hK]; exact List.mem_cons_of_mem _ h)
    have hins := Insert_fresh_spec p now2 knew vnew _ cap hcapfind hinvfind hfreshnew
    have hlenA : (knew :: k0 :: R2.reverse).length = cap := by
      have : (firstKeys kvs).length = cap := hKlen
      rw [hK, hR] at this
      simp only [List.length_cons] at this
      simp only [List.length_cons, List.length_reverse]
      omega
    have hkeysfinal : keysOf (LruMap.Insert p now2 knew vnew (LruMap.Find p now1 k0
        (LruMap.runOps p (LruMap.init (cap : Int)) (insOps kvs))).2)
        = knew :: k0 :: R2.reverse := by
      rw [hins.1, hkeysfind, hR, List.reverse_cons]
      have hassoc : knew :: k0 :: (R2.reverse ++ [k1])
          = (knew :: k0 :: R2.reverse) ++ [k1] := by
        simp
      rw [hassoc, List.take_append_eq_append_take, List.take_of_length_le (le_of_eq hlenA),
        hlenA, Nat.sub_self, List.take_zero, List.append_nil]
    rw [hkeysfinal]
    first
    | (intro hmem
       cases List.mem_cons.1 hmem with
       | inl h =>
         exact hknew (h ▸ hk1K)
       | inr h =>
         cases List.mem_cons.1 h with
         | inl h2 =>
           rw [hK, List.nodup_cons] at hnd
           exact hnd.1 (h2 ▸ (by rw [hR]; exact List.mem_cons_self _ _ : k1 ∈ R))
         | inr h2 =>
           rw [List.mem_reverse] at h2
           exact hndR.1 h2)
    | exact List.mem_cons_of_mem _ (List.mem_cons_self _ _)
    | exact List.mem_cons_self _ _
  }

theorem C3_find_refreshes_recency_witness :
    (LruMap.Find ⟨false, false⟩ 5 1 (LruMap.runOps ⟨false, false⟩
        (LruMap.init ((2 : Nat) : Int)) (insOps [(1, 10), (2, 20)]))).1.isSome = true ∧
    (keysOf (LruMap.Find ⟨false, false⟩ 5 1 (LruMap.runOps ⟨false, false⟩
        (LruMap.init ((2 : Nat) : Int)) (insOps [(1, 10), (2, 20)]))).2).head? = some 1 ∧
    (2 : Int) ∉ keysOf (LruMap.Insert ⟨false, false⟩ 6 3 30 (LruMap.Find ⟨false, false⟩ 5 1
        (LruMap.runOps ⟨false, false⟩ (LruMap.init ((2 : Nat) : Int))
          (insOps [(1, 10), (2, 20)]))).2) ∧
    (1 : Int) ∈ keysOf (LruMap.Insert ⟨false, false⟩ 6 3 30 (LruMap.Find ⟨false, false⟩ 5 1
        (LruMap.runOps ⟨false, false⟩ (LruMap.init ((2 : Nat) : Int))
          (insOps [(1, 10), (2, 20)]))).2) ∧
    (3 : Int) ∈ keysOf (LruMap.Insert ⟨false, false⟩ 6 3 30 (LruMap.Find ⟨false, false⟩ 5 1
        (LruMap.runOps ⟨false, false⟩ (LruMap.init ((2 : Nat) : Int))
          (insOps [(1, 10), (2, 20)]))).2) :=
  C3_find_refreshes_recency ⟨false, false⟩ 2 (by decide) [(1, 10), (2, 20)] (by decide)
    (by decide) 3 30 5 6 1 2 (by decide) (by decide) (by decide)

theorem Find_stats_cond (p : Policies) (now k : Int) (m : LruMap) :
    (LruMap.Find p now k m).2.lru_stats_.num_find = m.lru_stats_.num_find + 1 ∧
    (LruMap.Find p now k m).2.lru_stats_.num_find_ok
      = m.lru_stats_.num_find_ok + (if LruMap.Exists k m = true then (1 : Int) else 0) ∧
    (LruMap.Find p now k m).2.lru_stats_.num_insert = m.lru_stats_.num_insert ∧
    (LruMap.Find p now k m).2.lru_stats_.num_overflow = m.lru_stats_.num_overflow ∧
    (LruMap.Find p now k m).2.lru_stats_.num_erase = m.lru_stats_.num_erase ∧
    (LruMap.Find p now k m).2.lru_stats_.num_clear = m.lru_stats_.num_clear := by
  cases hc : m.lru_key_map_.contains k with
  | true =>
    have h := Find_hit_stats p now k m hc
    rw [if_pos (show LruMap.Exists k m = true from hc)]
    exact ⟨h.1, h.2.1, h.2.2.1, h.2.2.2.1, h.2.2.2.2.1, h.2.2.2.2.2⟩
  | false =>
    have h := Find_miss_spec p now k m hc
    rw [if_neg (show ¬ LruMap.Exists k m = true by
      rw [show LruMap.Exists k m = m.lru_key_map_.contains k from rfl, hc]
      exact Bool.false_ne_true)]
    refine ⟨h.2.2.2.1, ?_, h.2.2.2.2.2.1, h.2.2.2.2.2.2.1, h.2.2.2.2.2.2.2.1,
      h.2.2.2.2.2.2.2.2⟩
    rw [h.2.2.2.2.1]
    omega

/-- C8: starting from an empty map of capacity 4, inserting 8 distinct
keys gives num_insert = 8 and num_overflow = 4; three subsequent Find
calls of which exactly two hit and one misses give num_find = 3 and
num_find_ok = 2; Clear() then resets Size() to 0, leaves num_insert,
num_overflow, num_find, num_find_ok and num_erase unchanged, and
increments num_clear by exactly one (from 0 to 1). -/
theorem C8_stats_accuracy (p : Policies) (kvs : List (Int × Int))
    (hnd : (firstKeys kvs).Nodup) (hlen : kvs.length = 8)
    (q1 q2 q3 t1 t2 t3 : Int) (m8 m9 m10 m11 : LruMap)
    (hm8 : m8 = LruMap.runOps p (LruMap.init ((4 : Nat) : Int)) (insOps kvs))
    (hm9 : m9 = (LruMap.Find p t1 q1 m8).2)
    (hm10 : m10 = (LruMap.Find p t2 q2 m9).2)
    (hm11 : m11 = (LruMap.Find p t3 q3 m10).2)
    (hcount : (if LruMap.Exists q1 m8 = true then (1 : Int) else 0)
      + (if LruMap.Exists q2 m9 = true then (1 : Int) else 0)
      + (if LruMap.Exists q3 m10 = true then (1 : Int) else 0) = 2) :
    m8.lru_stats_.num_insert = 8 ∧ m8.lru_stats_.num_overflow = 4 ∧
    m11.lru_stats_.num_find = 3 ∧ m11.lru_stats_.num_find_ok = 2 ∧
    LruMap.Size (LruMap.Clear m11) = 0 ∧
    (LruMap.Clear m11).lru_stats_.num_insert = 8 ∧
    (LruMap.Clear m11).lru_stats_.num_overflow = 4 ∧
    (LruMap.Clear m11).lru_stats_.num_find = 3 ∧
    (LruMap.Clear m11).lru_stats_.num_find_ok = 2 ∧
    (LruMap.Clear m11).lru_stats_.num_erase = m11.lru_stats_.num_erase ∧
    m11.lru_stats_.num_clear = 0 ∧
    (LruMap.Clear m11).lru_stats_.num_clear = m11.lru_stats_.num_clear + 1 := by
  have hinv0 : LruInv (LruMap.init ((4 : Nat) : Int)) := by
    apply lruInv_init
    norm_num
  have hfresh0 : ∀ x ∈ firstKeys kvs, x ∉ keysOf (LruMap.init ((4 : Nat) : Int)) := by
    intro x _ hmem
    rw [show keysOf (LruMap.init ((4 : Nat) : Int)) = [] from rfl] at hmem
    cases hmem
  have hrun := insertRun_spec p kvs (LruMap.init ((4 : Nat) : Int)) 4 rfl hinv0 hnd hfresh0
  have hi8 : m8.lru_stats_.num_insert = 8 := by
    rw [hm8, hrun.2.2.1, hlen]
    show (0 : Int) + ((8 : Nat) : Int) = 8
    norm_num
  have ho8 : m8.lru_stats_.num_overflow = 4 := by
    rw [hm8, hrun.2.1, hlen]
    show (0 : Int) + (((0 : Nat) + 8 - 4 : Nat) : Int) = 4
    norm_num
  have hf8 : m8.lru_stats_.num_find = 0 := by
    rw [hm8, hrun.2.2.2.1]
    rfl
  have hok8 : m8.lru_stats_.num_find_ok = 0 := by
    rw [hm8, hrun.2.2.2.2.1]
    rfl
  have he8 : m8.lru_stats_.num_erase = 0 := by
    rw [hm8, hrun.2.2.2.2.2.1]
    rfl
  have hc8 : m8.lru_stats_.num_clear = 0 := by
    rw [hm8, hrun.2.2.2.2.2.2]
    rfl
  have s1 := Find_stats_cond p t1 q1 m8
  have s2 := Find_stats_cond p t2 q2 m9
  have s3 := Find_stats_cond p t3 q3 m10
  rw [← hm9] at s1
  rw [← hm10] at s2
  rw [← hm11] at s3
  have cs := Clear_spec m11
  have hfind3 : m11.lru_stats_.num_find = 3 := by omega
  have hok3 : m11.lru_stats_.num_find_ok = 2 := by omega
  refine ⟨hi8, ho8, hfind3, hok3, ?_, ?_, ?_, ?_, ?_, cs.2.2.2.2.2.2.2, ?_, cs.2.2.1⟩
  · rw [LruMap.Size, LruMap.SizePrivate, cs.1]
    rfl
  · omega
  · omega
  · omega
  · omega
  · omega


theorem C8_stats_accuracy_witness :
    statsScenarioM8.lru_stats_.num_insert = 8 ∧
    statsScenarioM8.lru_stats_.num_overflow = 4 ∧
    statsScenarioM11.lru_stats_.num_find = 3 ∧
    statsScenarioM11.lru_stats_.num_find_ok = 2 ∧
    LruMap.Size (LruMap.Clear statsScenarioM11) = 0 ∧
    (LruMap.Clear statsScenarioM11).lru_stats_.num_insert = 8 ∧
    (LruMap.Clear statsScenarioM11).lru_stats_.num_overflow = 4 ∧
    (LruMap.Clear statsScenarioM11).lru_stats_.num_find = 3 ∧
    (LruMap.Clear statsScenarioM11).lru_stats_.num_find_ok = 2 ∧
    (LruMap.Clear statsScenarioM11).lru_stats_.num_erase
      = statsScenarioM11.lru_stats_.num_erase ∧
    statsScenarioM11.lru_stats_.num_clear = 0 ∧
    (LruMap.Clear statsScenarioM11).lru_stats_.num_clear
      = statsScenarioM11.lru_stats_.num_clear + 1 :=
  C8_stats_accuracy ⟨false, false⟩ statsScenarioKvs (by decide) (by decide)
    7 6 0 1 2 3 statsScenarioM8 statsScenarioM9 statsScenarioM10 statsScenarioM11
    rfl rfl rfl rfl (by decide)

/-! The timestamp-order invariant under the TimestampAll policy. -/

theorem access_incrementHitCount (p : Policies) (e : KeyValueEntry) :
    (incrementHitCount p e).access_time_usecs = e.access_time_usecs := by
  unfold incrementHitCount
  split <;> rfl

theorem modify_incrementHitCount (p : Policies) (e : KeyValueEntry) :
    (incrementHitCount p e).modify_time_usecs = e.modify_time_usecs := by
  unfold incrementHitCount
  split <;> rfl

theorem access_updateAccessTimestamp_on (p : Policies) (hts : p.timestampAll = true)
    (now : Int) (e : KeyValueEntry) :
    (updateAccessTimestamp p now e).access_time_usecs = now := by
  unfold updateAccessTimestamp
  rw [if_pos hts]

theorem modify_updateAccessTimestamp (p : Policies) (now : Int) (e : KeyValueEntry) :
    (updateAccessTimestamp p now e).modify_time_usecs = e.modify_time_usecs := by
  unfold updateAccessTimestamp
  split <;> rfl

theorem access_updateModifyTimestamp (p : Policies) (now : Int) (e : KeyValueEntry) :
    (updateModifyTimestamp p now e).access_time_usecs = e.access_time_usecs := by
  unfold updateModifyTimestamp
  split <;> rfl

theorem modify_updateModifyTimestamp_on (p : Policies) (hts : p.timestampAll = true)
    (now : Int) (e : KeyValueEntry) :
    (updateModifyTimestamp p now e).modify_time_usecs = now := by
  unfold updateModifyTimestamp
  rw [if_pos hts]

theorem tsOkList_sublist (t : Int) (l l' : List KeyValueEntry)
    (h : TsOkList t l) (hs : List.Sublist l' l) : TsOkList t l' :=
  ⟨h.1.sublist hs, fun e he => h.2 e (hs.subset he)⟩

theorem tsOkList_cons (t now : Int) (l rest : List KeyValueEntry) (f : KeyValueEntry)
    (h : TsOkList t l) (hsub : List.Sublist rest l)
    (hf : maxTs f = now) (ht : t ≤ now) : TsOkList now (f :: rest) := by
  constructor
  · rw [List.pairwise_cons]
    refine ⟨?_, h.1.sublist hsub⟩
    intro b hbmem
    have := h.2 b (hsub.subset hbmem)
    omega
  · intro e he
    cases List.mem_cons.1 he with
    | inl heq =>
      rw [heq, hf]
    | inr hmem =>
      have := h.2 e (hsub.subset hmem)
      omega

theorem timestampValidFrom_true (prev : Int) (l : List KeyValueEntry)
    (hp : List.Pairwise (fun a b => maxTs b ≤ maxTs a) l)
    (hb : ∀ e ∈ l, maxTs e ≤ prev) : timestampValidFrom prev l = true := by
  induction l generalizing prev with
  | nil => rfl
  | cons e rest ih =>
    rw [timestampValidFrom]
    rw [List.pairwise_cons] at hp
    have hbe : maxTs e ≤ prev := hb e (List.mem_cons_self _ _)
    rw [if_neg (by rw [show max e.access_time_usecs e.modify_time_usecs = maxTs e from rfl]; omega)]
    exact ih (maxTs e) hp.2 (fun e' he' => hp.1 e' he')

theorem evictIfOver_list_cases (m : LruMap) :
    (evictIfOver m).lru_list_ = m.lru_list_ ∨
    (evictIfOver m).lru_list_ = m.lru_list_.dropLast := by
  unfold evictIfOver
  split
  · cases m.lru_list_.getLast? with
    | none => left; rfl
    | some oldest => right; rfl
  · left; rfl

theorem insertPhase2_shape (p : Policies) (now k v : Int) (m : LruMap) :
    (insertPhase2 p now k v m).lru_list_ = [] ∨
    ∃ g rest, (insertPhase2 p now k v m).lru_list_ = updateModifyTimestamp p now g :: rest
      ∧ List.Sublist rest m.lru_list_
      ∧ (g.access_time_usecs = 0 ∨
          ∃ e ∈ m.lru_list_, g.access_time_usecs = e.access_time_usecs) := by
  rw [insertPhase2_list]
  unfold insertPhase1
  split
  · dsimp only
    cases hf : m.lru_list_.find? (fun e => e.key == k) with
    | some e =>
      right
      rw [splice_eq_of_find? hf]
      exact ⟨{ e with value := v }, m.lru_list_.eraseP (fun e => e.key == k), rfl,
        List.eraseP_sublist _, Or.inr ⟨e, List.mem_of_find?_eq_some hf, rfl⟩⟩
    | none =>
      rw [show spliceToFront k m.lru_list_ = m.lru_list_ by rw [spliceToFront, hf]]
      cases m.lru_list_ with
      | nil => left; rfl
      | cons e0 r0 =>
        right
        exact ⟨{ e0 with value := v }, r0, rfl, List.sublist_cons_self e0 r0,
          Or.inr ⟨e0, List.mem_cons_self _ _, rfl⟩⟩
  · dsimp only
    right
    exact ⟨KeyValueEntry.make k v, m.lru_list_, rfl, List.Sublist.refl _, Or.inl rfl⟩

theorem tsOk_Insert (p : Policies) (hts : p.timestampAll = true) (now k v t : Int)
    (m : LruMap) (hok : TsOk t m) (hnow : t ≤ now) (hmax : now ≤ int64Max) :
    TsOk now (LruMap.Insert p now k v m) := by
  rcases hok with ⟨hlist, ht0, htm⟩
  have h2ok : TsOkList now (insertPhase2 p now k v m).lru_list_ := by
    rcases insertPhase2_shape p now k v m with hnil | ⟨g, rest, heq, hsub, hacc⟩
    · rw [hnil]
      exact ⟨List.Pairwise.nil, fun e he => absurd he (List.not_mem_nil e)⟩
    · rw [heq]
      have haccle : g.access_time_usecs ≤ now := by
        rcases hacc with h0 | ⟨e, he, hae⟩
        · omega
        · have := hlist.2 e he
          rw [maxTs] at this
          omega
      apply tsOkList_cons t now m.lru_list_ rest _ hlist hsub _ hnow
      rw [maxTs, access_updateModifyTimestamp, modify_updateModifyTimestamp_on p hts]
      omega
  have hfin : TsOkList now (LruMap.Insert p now k v m).lru_list_ := by
    have hlcases := evictIfOver_list_cases (insertPhase2 p now k v m)
    have hIl : (LruMap.Insert p now k v m).lru_list_
        = (evictIfOver (insertPhase2 p now k v m)).lru_list_ := rfl
    rcases hlcases with hsame | hdrop
    · rw [hIl, hsame]
      exact h2ok
    · rw [hIl, hdrop]
      exact tsOkList_sublist now _ _ h2ok (List.dropLast_sublist _)
  exact ⟨hfin, by omega, hmax⟩

theorem Find_list_shape (p : Policies) (now k : Int) (m : LruMap) :
    (LruMap.Find p now k m).2.lru_list_ = m.lru_list_ ∨
    ∃ e rest, (LruMap.Find p now k m).2.lru_list_
        = updateAccessTimestamp p now (incrementHitCount p e) :: rest ∧
      List.Sublist rest m.lru_list_ ∧ e ∈ m.lru_list_ := by
  unfold LruMap.Find
  dsimp only
  split
  · cases hf : m.lru_list_.find? (fun e => e.key == k) with
    | some e =>
      right
      rw [splice_eq_of_find? hf]
      exact ⟨e, m.lru_list_.eraseP (fun e => e.key == k), rfl, List.eraseP_sublist _,
        List.mem_of_find?_eq_some hf⟩
    | none =>
      rw [show spliceToFront k m.lru_list_ = m.lru_list_ by rw [spliceToFront, hf]]
      cases m.lru_list_ with
      | nil => left; rfl
      | cons e0 r0 =>
        right
        exact ⟨e0, r0, rfl, List.sublist_cons_self e0 r0, List.mem_cons_self _ _⟩
  · left
    rfl

theorem tsOk_Find (p : Policies) (hts : p.timestampAll = true) (now k t : Int)
    (m : LruMap) (hok : TsOk t m) (hnow : t ≤ now) (hmax : now ≤ int64Max) :
    TsOk now (LruMap.Find p now k m).2 := by
  rcases hok with ⟨hlist, ht0, htm⟩
  have hfin : TsOkList now (LruMap.Find p now k m).2.lru_list_ := by
    rcases Find_list_shape p now k m with hsame | ⟨e, rest, heq, hsub, hmem⟩
    · rw [hsame]
      exact ⟨hlist.1, fun e he => by have := hlist.2 e he; omega⟩
    · rw [heq]
      have hmod : e.modify_time_usecs ≤ now := by
        have := hlist.2 e hmem
        rw [maxTs] at this
        omega
      apply tsOkList_cons t now m.lru_list_ rest _ hlist hsub _ hnow
      rw [maxTs, access_updateAccessTimestamp_on p hts, modify_updateAccessTimestamp,
        modify_incrementHitCount]
      omega
  exact ⟨hfin, by omega, hmax⟩

theorem tsOk_Erase (k t : Int) (m : LruMap) (hok : TsOk t m) :
    TsOk t (LruMap.Erase k m) := by
  rcases hok with ⟨hlist, ht0, htm⟩
  refine ⟨?_, ht0, htm⟩
  unfold LruMap.Erase
  dsimp only
  split
  · exact tsOkList_sublist t _ _ hlist (List.eraseP_sublist _)
  · exact hlist

theorem tsOk_Clear (t : Int) (m : LruMap) (hok : TsOk t m) :
    TsOk t (LruMap.Clear m) := by
  exact ⟨⟨List.Pairwise.nil, fun e he => absurd he (List.not_mem_nil e)⟩,
    hok.2.1, hok.2.2⟩

theorem tsOk_runOps (p : Policies) (hts : p.timestampAll = true) (ops : List Op) :
    ∀ (t : Int) (m : LruMap), TsOk t m → timesOkFrom t ops = true →
      ∃ t', TsOk t' (LruMap.runOps p m ops) := by
  induction ops with
  | nil => exact fun t m h _ => ⟨t, h⟩
  | cons op rest ih =>
    intro t m hok htimes
    have hstep : LruMap.runOps p m (op :: rest)
        = LruMap.runOps p (LruMap.applyOp p m op) rest := rfl
    rw [hstep]
    cases op with
    | insert now k v =>
      rw [timesOkFrom] at htimes
      have h1 : t ≤ now ∧ now ≤ int64Max ∧ timesOkFrom now rest = true := by
        rw [Bool.and_eq_true, Bool.and_eq_true, decide_eq_true_iff, decide_eq_true_iff]
          at htimes
        exact ⟨htimes.1.1, htimes.1.2, htimes.2⟩
      exact ih now _ (tsOk_Insert p hts now k v t m hok h1.1 h1.2.1) h1.2.2
    | find now k =>
      rw [timesOkFrom] at htimes
      have h1 : t ≤ now ∧ now ≤ int64Max ∧ timesOkFrom now rest = true := by
        rw [Bool.and_eq_true, Bool.and_eq_true, decide_eq_true_iff, decide_eq_true_iff]
          at htimes
        exact ⟨htimes.1.1, htimes.1.2, htimes.2⟩
      exact ih now _ (tsOk_Find p hts now k t m hok h1.1 h1.2.1) h1.2.2
    | exists_ k => exact ih t _ hok htimes
    | erase k => exact ih t _ (tsOk_Erase k t m hok) htimes
    | clear => exact ih t _ (tsOk_Clear t m hok) htimes

/-- C6: with the full timestamping policy active and the wall clock
non-decreasing across calls (and within the int64 microsecond range),
Valid() returns true after any operation sequence from a fresh map; with
timestamping disabled, Valid() returns true in every state. -/
theorem C6_validity_audit (p : Policies) (cap : Int) (_hcap : 1 ≤ cap) (ops : List Op)
    (hts : p.timestampAll = true) (htimes : timesOkFrom 0 ops = true) :
    LruMap.Valid p (LruMap.runOps p (LruMap.init cap) ops) = true ∧
    ∀ (q : Policies) (m2 : LruMap), q.timestampAll = false → LruMap.Valid q m2 = true := by
  constructor
  · have h0 : TsOk 0 (LruMap.init cap) := by
      refine ⟨⟨List.Pairwise.nil, ?_⟩, le_refl 0, by rw [int64Max]; omega⟩
      intro e he
      cases he
    rcases tsOk_runOps p hts ops 0 (LruMap.init cap) h0 htimes with ⟨t2, hlist, _, htm⟩
    rw [LruMap.Valid, if_pos hts, TimestampAll.Valid]
    exact timestampValidFrom_true int64Max _ hlist.1
      (fun e he => by have := hlist.2 e he; omega)
  · intro q m2 hq
    rw [LruMap.Valid, if_neg (by rw [hq]; exact Bool.false_ne_true)]
    rfl

theorem C6_validity_audit_witness :
    (1 : Int) ≤ 2 ∧ (⟨true, false⟩ : Policies).timestampAll = true ∧
      timesOkFrom 0 [Op.insert 5 1 10, Op.find 6 1, Op.insert 7 2 20,
        Op.erase 1, Op.clear, Op.insert 9 3 30] = true ∧
    (LruMap.Valid ⟨true, false⟩ (LruMap.runOps ⟨true, false⟩ (LruMap.init 2)
        [Op.insert 5 1 10, Op.find 6 1, Op.insert 7 2 20,
         Op.erase 1, Op.clear, Op.insert 9 3 30]) = true ∧
      ∀ (q : Policies) (m2 : LruMap), q.timestampAll = false →
        LruMap.Valid q m2 = true) :=
  ⟨by decide, by decide, by decide,
    C6_validity_audit ⟨true, false⟩ 2 (by decide)
      [Op.insert 5 1 10, Op.find 6 1, Op.insert 7 2 20, Op.erase 1, Op.clear,
       Op.insert 9 3 30] (by decide) (by decide)⟩
